import Mathlib

/-!
# Verification development for `pcs`

A shallow embedding of the labelled-transition-system container
(`src/pcs/lts/lts.h`), the label classifier (`src/pcs/operation/label.cpp`),
the recipe parser (`src/pcs/product/parsers/recipe.cpp`) and the machine
(`src/pcs/machine/machine.cpp`), followed by theorems about them.

Conventions of the embedding:

* `std::unordered_map<KeyT, State>` is an association list whose keys are
  pairwise distinct (`MapWF`); lookups, insertions and erasures go through the
  `map*` functions below.  The order of the list stands for one iteration
  order of the container; no theorem depends on it.
* `std::vector` is `List`; an iterator into a vector is the index it points at.
* Code that throws returns `Except Exn _`; code whose behaviour is undefined
  (an iterator moved past `end()`) returns `none`.
-/

namespace pcs

/-! ## Definitions -/

/-- Failures of the embedded code: the exceptions it can throw
(`std::out_of_range`, `std::invalid_argument`, the JSON library's
`type_error`), a failed assertion of the JSON library, and the spec's
`ParseError` for malformed text. -/
inductive Exn where
  | out_of_range
  | invalid_argument
  | type_error
  | assertion
  | parse_error
deriving DecidableEq, Repr

/-- Lookup in the association list standing for an `unordered_map`. -/
def mapFind {K V : Type} [DecidableEq K] (key : K) : List (K × V) → Option V
  | [] => none
  | e :: m => if e.1 = key then some e.2 else mapFind key m

/-- Membership test `unordered_map::contains`. -/
def mapContains {K V : Type} [DecidableEq K] (key : K) (m : List (K × V)) : Bool :=
  (mapFind key m).isSome

/-- Insertion `unordered_map::emplace`: nothing happens when the key is present. -/
def mapEmplace {K V : Type} [DecidableEq K] (key : K) (v : V) (m : List (K × V)) :
    List (K × V) :=
  if mapContains key m then m else m ++ [(key, v)]

/-- Removal `unordered_map::erase(key)`. -/
def mapErase {K V : Type} [DecidableEq K] (key : K) (m : List (K × V)) : List (K × V) :=
  m.filter (fun e => decide (e.1 ≠ key))

/-- In-place update of the value stored under `key` (a mutation through the
reference returned by `unordered_map::at`). -/
def mapModify {K V : Type} [DecidableEq K] (key : K) (f : V → V) (m : List (K × V)) :
    List (K × V) :=
  m.map (fun e => if e.1 = key then (e.1, f e.2) else e)

/-- Well-formedness of the association list: no key occurs twice. -/
def MapWF {K V : Type} (m : List (K × V)) : Prop :=
  (m.map Prod.fst).Nodup

/-- The class `pcs::State`, as `lts.h` uses it: the public member
`transitions_`, a `std::vector<std::pair<TransitionT, KeyT>>`. -/
structure State (K T : Type) where
  transitions_ : List (T × K)
deriving DecidableEq, Repr

/-- Default-constructed state `State()`: no transitions. -/
def State.new {K T : Type} : State K T := ⟨[]⟩

/-- Modelled from the spec: `State::AddTransition` (`pcs/lts/state.h` is not
among the sources); the container "always appends (multi-edges permitted)". -/
def State.AddTransition {K T : Type} (s : State K T) (label : T) (end_state : K) :
    State K T :=
  ⟨s.transitions_ ++ [(label, end_state)]⟩

/-- The class `pcs::LTS`: the state map and the initial state. -/
structure LTS (K T : Type) where
  states_ : List (K × State K T)
  initial_state_ : K
deriving DecidableEq, Repr

namespace LTS

variable {K T : Type} [DecidableEq K]

/-- Default constructor `LTS()`: no states, value-initialised initial state. -/
def new [Inhabited K] : LTS K T := ⟨[], default⟩

/-- Embedding of `HasState` (lts.h:51). -/
def HasState (lts : LTS K T) (key : K) : Bool :=
  mapContains key lts.states_

/-- Embedding of `NumOfStates` (lts.h:55). -/
def NumOfStates (lts : LTS K T) : Nat :=
  lts.states_.length

/-- Embedding of `NumOfTransitions` (lts.h:59). -/
def NumOfTransitions (lts : LTS K T) : Nat :=
  (lts.states_.map (fun e => e.2.transitions_.length)).sum

/-- Private `AddState(name, state)` (lts.h:139 and lts.h:147). -/
def AddStateWith (lts : LTS K T) (name : K) (state : State K T) : Bool × LTS K T :=
  if !lts.HasState name then
    (true, { lts with states_ := mapEmplace name state lts.states_ })
  else
    (false, lts)

/-- Public `AddState(key)` (lts.h:116). -/
def AddState (lts : LTS K T) (key : K) : Bool × LTS K T :=
  lts.AddStateWith key State.new

/-- Embedding of `set_initial_state` (lts.h:44). -/
def set_initial_state (lts : LTS K T) (state : K) (create_if_not_exists : Bool) : LTS K T :=
  let lts1 :=
    if !lts.HasState state && create_if_not_exists then (lts.AddStateWith state State.new).2
    else lts
  { lts1 with initial_state_ := state }

/-- Embedding of `EraseShallow` (lts.h:71). -/
def EraseShallow (lts : LTS K T) (key : K) : Bool × LTS K T :=
  if lts.HasState key then
    (true, { lts with states_ := mapErase key lts.states_ })
  else
    (false, lts)

/-- The `while` loop of `EraseDeep` (lts.h:86-93) over one vector `v`, the
iterator `it` being the index it points at.  `erase(it++)` removes the element
at `it` and leaves the iterator one position further on, in the shortened
vector.  The loop stops when `it` equals `end()`; when `it` has moved past
`end()` the next dereference is undefined behaviour, rendered as `none`. -/
def eraseLoop (key : K) (v : List (T × K)) (it : Nat) : Option (List (T × K)) :=
  if h : it < v.length then
    if (v.get ⟨it, h⟩).2 = key then
      eraseLoop key (v.eraseIdx it) (it + 1)
    else
      eraseLoop key v (it + 1)
  else if it = v.length then some v
  else none
termination_by v.length - it
decreasing_by
  · simp only [List.length_eraseIdx, h, if_true]; omega
  · omega

/-- The `for` loop of `EraseDeep` (lts.h:85) over the entries of the map. -/
def eraseTargets (key : K) : List (K × State K T) → Option (List (K × State K T))
  | [] => some []
  | e :: rest =>
    match eraseLoop key e.2.transitions_ 0, eraseTargets key rest with
    | some t, some r => some ((e.1, ⟨t⟩) :: r)
    | _, _ => none

/-- Embedding of `EraseDeep` (lts.h:82). -/
def EraseDeep (lts : LTS K T) (key : K) : Option (Bool × LTS K T) :=
  if lts.HasState key then
    match eraseTargets key (mapErase key lts.states_) with
    | some m => some (true, { lts with states_ := m })
    | none => none
  else
    some (false, lts)

/-- Embedding of `AddTransition` (lts.h:100) as a state change: the LTS object
after the call, and the exception the call threw, if any.  `states_.at`
throws `std::out_of_range` when the start state is absent; whatever was
inserted before stays in the object. -/
def AddTransitionRun (lts : LTS K T) (start_state : K) (label : T) (end_state : K)
    (create_missing_states : Bool) : LTS K T × Option Exn :=
  let lts1 :=
    if !lts.HasState start_state && create_missing_states then
      (lts.AddStateWith start_state State.new).2
    else lts
  let lts2 :=
    if !lts1.HasState end_state && create_missing_states then
      (lts1.AddStateWith end_state State.new).2
    else lts1
  match mapFind start_state lts2.states_ with
  | none => (lts2, some .out_of_range)
  | some _ =>
    ({ lts2 with
      states_ := mapModify start_state (fun s => s.AddTransition label end_state) lts2.states_ },
     none)

/-- The call `AddTransition` (lts.h:100) as a value: the LTS after a call that
returned, or the exception thrown. -/
def AddTransition (lts : LTS K T) (start_state : K) (label : T) (end_state : K)
    (create_missing_states : Bool) : Except Exn (LTS K T) :=
  match lts.AddTransitionRun start_state label end_state create_missing_states with
  | (after, none) => .ok after
  | (_, some e) => .error e

end LTS

namespace LTS

variable {K T : Type} [DecidableEq K]

/-- The outgoing transitions `lts[key].transitions_` of a state (lts.h:128),
`none` when `key` is not a state. -/
def outgoing (lts : LTS K T) (key : K) : Option (List (T × K)) :=
  (mapFind key lts.states_).map State.transitions_

/-- A run of `AddTransition(start, label, end)` calls with
`create_missing_states = true`, one per triple, in order. -/
def addAll (lts : LTS K T) (ts : List (K × T × K)) : Except Exn (LTS K T) :=
  ts.foldlM (fun acc t => acc.AddTransition t.1 t.2.1 t.2.2 true) lts

/-- The transitions a list of `(start, label, end)` triples gives the state
`key`, in the order of the list. -/
def edgesFrom (ts : List (K × T × K)) (key : K) : List (T × K) :=
  (ts.filter (fun t => decide (t.1 = key))).map (fun t => (t.2.1, t.2.2))

/-- Whether `key` is the start or the end of one of the triples. -/
def mentions (ts : List (K × T × K)) (key : K) : Bool :=
  ts.any (fun t => decide (t.1 = key) || decide (t.2.2 = key))

end LTS

namespace LTS

variable {K T : Type} [DecidableEq K]

/-- The LTSs that the public operations of the container build from the empty
LTS: `set_initial_state` (either flag), `AddState`, `AddTransition` (either
flag; the object after the call, whether it threw or not), `EraseShallow` and
`EraseDeep` (when it returns). -/
inductive Built [Inhabited K] : LTS K T → Prop where
  | new : Built LTS.new
  | set_initial_state {lts : LTS K T} (k : K) (create : Bool) :
      Built lts → Built (lts.set_initial_state k create)
  | AddState {lts : LTS K T} (k : K) : Built lts → Built (lts.AddState k).2
  | AddTransition {lts : LTS K T} (a : K) (l : T) (b : K) (create : Bool) :
      Built lts → Built (lts.AddTransitionRun a l b create).1
  | EraseShallow {lts : LTS K T} (k : K) : Built lts → Built (lts.EraseShallow k).2
  | EraseDeep {lts : LTS K T} (k : K) (r : Bool × LTS K T) :
      Built lts → lts.EraseDeep k = some r → Built r.2

/-- The LTSs obtained from a call `set_initial_state(k, true)` by operations
that neither erase the initial state nor move it to a key without creating
it: `set_initial_state(_, true)`, `AddState`, `AddTransition` (either flag),
and `EraseShallow` / `EraseDeep` of a key other than the initial state. -/
inductive InitialKept : LTS K T → Prop where
  | start (lts : LTS K T) (k : K) : InitialKept (lts.set_initial_state k true)
  | AddState {lts : LTS K T} (k : K) : InitialKept lts → InitialKept (lts.AddState k).2
  | AddTransition {lts : LTS K T} (a : K) (l : T) (b : K) (create : Bool) :
      InitialKept lts → InitialKept (lts.AddTransitionRun a l b create).1
  | EraseShallow {lts : LTS K T} (k : K) :
      InitialKept lts → k ≠ lts.initial_state_ → InitialKept (lts.EraseShallow k).2
  | EraseDeep {lts : LTS K T} (k : K) (r : Bool × LTS K T) :
      InitialKept lts → k ≠ lts.initial_state_ → lts.EraseDeep k = some r → InitialKept r.2

end LTS

/-! ### Label classifier (`src/pcs/operation/label.cpp`) -/

/-- The enumeration `Transfer` (direction of a transfer operation). -/
inductive Transfer where
  | in_
  | out
deriving DecidableEq, Repr

/-- The class `TransferOperation`, as `label.cpp` constructs it: a direction
and a handle of type `size_t`. -/
structure TransferOperation where
  type_ : Transfer
  n_ : Nat
deriving DecidableEq, Repr

/-- The dynamic type behind the `std::unique_ptr<IOperation>` that
`StringToOperation` returns: `TransferOperation`, `Nop` or `Operation(name)`. -/
inductive IOperation where
  | transfer (t : TransferOperation)
  | nop
  | operation (name : String)
deriving DecidableEq, Repr

/-- Whether `needle` is an initial segment of the text. -/
def startsWith : List Char → List Char → Bool
  | [], _ => true
  | _ :: _, [] => false
  | a :: as, c :: cs => a == c && startsWith as cs

/-- The test `label.find(needle) != std::string::npos`: `needle` occurs
somewhere in the text. -/
def findSub (needle : List Char) : List Char → Bool
  | [] => startsWith needle []
  | c :: cs => startsWith needle (c :: cs) || findSub needle cs

/-- The call `label.substr(pos)`: throws `std::out_of_range` when `pos`
exceeds the size. -/
def substr (label : List Char) (pos : Nat) : Except Exn (List Char) :=
  if pos > label.length then .error .out_of_range else .ok (label.drop pos)

/-- The C function `isspace` in the "C" locale. -/
def isspace (c : Char) : Bool :=
  c == ' ' || c == '\t' || c == '\n' || c == '\x0b' || c == '\x0c' || c == '\r'

/-- Value of a run of decimal digits. -/
def digitsValue (ds : List Char) : Nat :=
  ds.foldl (fun acc c => acc * 10 + (c.toNat - 48)) 0

/-- The optional sign `strtoull` accepts in front of the digits: whether it
is a minus sign, and the text after it. -/
def splitSign (s : List Char) : Bool × List Char :=
  match s with
  | '+' :: r => (false, r)
  | '-' :: r => (true, r)
  | _ => (false, s)

/-- The call `std::stoull(str)` (base 10, no position output), which wraps
`strtoull`: leading white space is skipped, one sign is accepted, the longest
run of digits is converted and whatever follows is ignored.  No digit gives
`std::invalid_argument`; a magnitude that does not fit 64 bits gives
`std::out_of_range`; a minus sign negates the value modulo `2^64`. -/
def stoull (str : List Char) : Except Exn Nat :=
  let signed := splitSign (str.dropWhile isspace)
  let ds := signed.2.takeWhile Char.isDigit
  if ds.isEmpty then .error .invalid_argument
  else if digitsValue ds ≥ 2 ^ 64 then .error .out_of_range
  else .ok (if signed.1 then (2 ^ 64 - digitsValue ds) % 2 ^ 64 else digitsValue ds)

/-- Embedding of `StringToOperation` (label.cpp:13). -/
def StringToOperation (label : String) : Except Exn IOperation :=
  if findSub "in:".data label.data then do
    let s ← substr label.data 3
    let n ← stoull s
    pure (.transfer ⟨.in_, n⟩)
  else if findSub "out:".data label.data then do
    let s ← substr label.data 4
    let n ← stoull s
    pure (.transfer ⟨.out, n⟩)
  else if label = "nop" then pure .nop
  else pure (.operation label)

/-- Embedding of `StringToTransfer` (label.cpp:26); `none` is the empty
`std::optional`. -/
def StringToTransfer (label : String) : Except Exn (Option TransferOperation) :=
  if findSub "in:".data label.data then do
    let s ← substr label.data 3
    let n ← stoull s
    pure (some ⟨.in_, n⟩)
  else if findSub "out:".data label.data then do
    let s ← substr label.data 4
    let n ← stoull s
    pure (some ⟨.out, n⟩)
  else pure none

/-! ### JSON values (`nlohmann::json`) and the recipe parser
(`src/pcs/product/parsers/recipe.cpp`) -/

/-- A JSON value as `nlohmann::json` holds it.  The member list of an object
stands for the content of its `std::map`, listed in key order. -/
inductive Json where
  | null
  | boolean (b : Bool)
  | number (n : Int)
  | string (s : String)
  | array (xs : List Json)
  | object (kvs : List (String × Json))

namespace Json

/-- The call `j[key]` on a `const json&`: the member of an object.  On a value
that is not an object the library throws `type_error`; on an object without
the key it fails an assertion. -/
def get (j : Json) (key : String) : Except Exn Json :=
  match j with
  | .object kvs =>
    match mapFind key kvs with
    | some v => .ok v
    | none => .error .assertion
  | _ => .error .type_error

/-- The implicit conversion of a JSON value to `std::string`: throws
`type_error` unless the value is a string. -/
def toStr (j : Json) : Except Exn String :=
  match j with
  | .string s => .ok s
  | _ => .error .type_error

/-- The elements a range-based `for` over a JSON value visits: the elements of
an array, the member values of an object, nothing for `null`, and the value
itself for any other value. -/
def items (j : Json) : List Json :=
  match j with
  | .array xs => xs
  | .object kvs => kvs.map Prod.snd
  | .null => []
  | other => [other]

/-- The test `j != nlohmann::json::object()`. -/
def isNotEmptyObject (j : Json) : Bool :=
  match j with
  | .object [] => false
  | _ => true

end Json

/-- The class `Observable`, as `recipe.cpp` uses it: the member `name_`. -/
structure Observable where
  name_ : String
deriving DecidableEq, Repr

/-- The class of `co.guard.first`, as `recipe.cpp` uses it: the member `name_`. -/
structure Guard where
  name_ : String
deriving DecidableEq, Repr

/-- The class `CompositeOperation`, as `recipe.cpp` uses it: `guard` is a pair
of a guard and its inputs, `sequential` and `parallel` are vectors of
`(observable, inputs, outputs)`. -/
structure CompositeOperation where
  guard : Guard × List String
  sequential : List (Observable × List String × List String)
  parallel : List (Observable × List String × List String)
deriving DecidableEq, Repr

/-- Default-constructed `CompositeOperation co;`: empty names and vectors. -/
def CompositeOperation.new : CompositeOperation := ⟨(⟨""⟩, []), [], []⟩

/-- A loop `for (const auto& x : xs) vec.emplace_back(f(x));` that fills an
empty vector: the elements are converted in order, and the first failure ends
the loop. -/
def collect {α β : Type} (f : α → Except Exn β) : List α → Except Exn (List β)
  | [] => .ok []
  | x :: xs =>
    match f x with
    | .error e => .error e
    | .ok y =>
      match collect f xs with
      | .error e => .error e
      | .ok ys => .ok (y :: ys)

/-- The loops `for (const auto& x : arr) vec.emplace_back(x);` of `ParseJson`
(recipe.cpp:46, 55, 58, 68, 71): every element is converted to a string. -/
def parseStrings (arr : Json) : Except Exn (List String) :=
  collect Json.toStr arr.items

/-- Body of the loops over `sequential` and `parallel` (recipe.cpp:50-62 and
63-75): one `(observable, inputs, outputs)` entry. -/
def parseObservable (op : Json) : Except Exn (Observable × List String × List String) := do
  let name ← (← op.get "name").toStr
  let input ← parseStrings (← op.get "input")
  let output ← parseStrings (← op.get "output")
  pure (⟨name⟩, input, output)

/-- The composite operation `ParseJson` builds for one element `t` of the
`transitions` array (recipe.cpp:43-75). -/
def parseLabel (t : Json) : Except Exn CompositeOperation := do
  let co := CompositeOperation.new
  let label ← t.get "label"
  let g ← label.get "guard"
  let guard ←
    if g.isNotEmptyObject then do
      let name ← (← g.get "name").toStr
      let inputs ← parseStrings (← g.get "input")
      pure ((⟨name⟩ : Guard), co.guard.2 ++ inputs)
    else pure co.guard
  let sequential ← collect parseObservable (← label.get "sequential").items
  let parallel ← collect parseObservable (← label.get "parallel").items
  pure ⟨guard, co.sequential ++ sequential, co.parallel ++ parallel⟩

/-- One iteration of the loop over `j["transitions"]` (recipe.cpp:42-77). -/
def parseTransition (lts : LTS String CompositeOperation) (t : Json) :
    Except Exn (LTS String CompositeOperation) := do
  let co ← parseLabel t
  let start_state ← (← t.get "startState").toStr
  let end_state ← (← t.get "endState").toStr
  lts.AddTransition start_state co end_state true

/-- Embedding of `ParseJson` for recipes (recipe.cpp:40). -/
def ParseJson (lts : LTS String CompositeOperation) (j : Json) :
    Except Exn (LTS String CompositeOperation) := do
  let initial ← (← j.get "initialState").toStr
  let lts1 := lts.set_initial_state initial true
  (← j.get "transitions").items.foldlM parseTransition lts1

/-! #### Recipe documents of the schema -/

/-- An element of a `sequential` or `parallel` array:
`{"name": …, "input": […], "output": […]}`. -/
structure ObservableDoc where
  name : String
  input : List String
  output : List String
deriving DecidableEq, Repr

/-- A guard that is not the empty object: `{"name": …, "input": […]}`. -/
structure GuardDoc where
  name : String
  input : List String
deriving DecidableEq, Repr

/-- A `label` object; `guard = none` is the empty JSON object `{}`. -/
structure LabelDoc where
  guard : Option GuardDoc
  sequential : List ObservableDoc
  parallel : List ObservableDoc
deriving DecidableEq, Repr

/-- An element of the `transitions` array. -/
structure TransitionDoc where
  startState : String
  endState : String
  label : LabelDoc
deriving DecidableEq, Repr

/-- A recipe document. -/
structure RecipeDoc where
  initialState : String
  transitions : List TransitionDoc
deriving DecidableEq, Repr

/-- JSON array of strings. -/
def stringsJson (xs : List String) : Json :=
  .array (xs.map Json.string)

/-- JSON text of an observable. -/
def ObservableDoc.toJson (o : ObservableDoc) : Json :=
  .object [("input", stringsJson o.input), ("name", .string o.name),
    ("output", stringsJson o.output)]

/-- JSON text of a guard. -/
def GuardDoc.toJson (g : GuardDoc) : Json :=
  .object [("input", stringsJson g.input), ("name", .string g.name)]

/-- JSON text of a label. -/
def LabelDoc.toJson (l : LabelDoc) : Json :=
  .object [
    ("guard", match l.guard with
      | none => .object []
      | some g => g.toJson),
    ("parallel", .array (l.parallel.map ObservableDoc.toJson)),
    ("sequential", .array (l.sequential.map ObservableDoc.toJson))]

/-- JSON text of a transition. -/
def TransitionDoc.toJson (t : TransitionDoc) : Json :=
  .object [("endState", .string t.endState), ("label", t.label.toJson),
    ("startState", .string t.startState)]

/-- JSON text of a recipe document. -/
def RecipeDoc.toJson (d : RecipeDoc) : Json :=
  .object [("initialState", .string d.initialState),
    ("transitions", .array (d.transitions.map TransitionDoc.toJson))]

/-- The `(observable, inputs, outputs)` entry the schema describes for one
element of a `sequential` or `parallel` array. -/
def ObservableDoc.entry (o : ObservableDoc) : Observable × List String × List String :=
  (⟨o.name⟩, o.input, o.output)

/-- The composite operation the schema describes for a label: no guard (empty
name, no inputs) for the empty guard object, else the guard's name and
inputs; the observables of `sequential` and of `parallel` in document order. -/
def LabelDoc.operation (l : LabelDoc) : CompositeOperation :=
  ⟨match l.guard with
    | none => (⟨""⟩, [])
    | some g => (⟨g.name⟩, g.input),
   l.sequential.map ObservableDoc.entry,
   l.parallel.map ObservableDoc.entry⟩

/-- The `(startState, operation, endState)` triple of a transition of the
document. -/
def TransitionDoc.triple (t : TransitionDoc) : String × CompositeOperation × String :=
  (t.startState, t.label.operation, t.endState)

/-! ### Equality of LTSs (lts.h:120) -/

/-- Modelled from the spec: `State::operator==` (`pcs/lts/state.h` is not
among the sources); two states are equal when their outgoing transitions are
"equal as sets of edges". -/
def State.eq {K T : Type} [DecidableEq K] [DecidableEq T] (x y : State K T) : Bool :=
  x.transitions_.all (fun e => decide (e ∈ y.transitions_)) &&
  y.transitions_.all (fun e => decide (e ∈ x.transitions_))

/-- The comparison `operator==` of `std::unordered_map`: equal sizes, and every
key of the first map is a key of the second with an equal value. -/
def mapEq {K V : Type} [DecidableEq K] (veq : V → V → Bool) (a b : List (K × V)) : Bool :=
  decide (a.length = b.length) &&
  a.all (fun e =>
    match mapFind e.1 b with
    | some v => veq e.2 v
    | none => false)

/-- Embedding of `LTS::operator==` (lts.h:120). -/
def LTS.eq {K T : Type} [DecidableEq K] [DecidableEq T] (a b : LTS K T) : Bool :=
  decide (a.initial_state_ = b.initial_state_) && mapEq State.eq a.states_ b.states_

/-! ### Resource parsers (`src/pcs/lts/parsers.h`)

The header declares `ReadFromFile`, `ReadFromJsonFile` and `ParseJson` for
`LTS<std::string>`; their bodies are not among the sources. -/

namespace lts

/-- Pieces of a text between occurrences of the separator. -/
def splitOn (sep : Char) : List Char → List (List Char)
  | [] => [[]]
  | c :: cs =>
    if c = sep then [] :: splitOn sep cs
    else
      match splitOn sep cs with
      | [] => [[c]]
      | piece :: pieces => (c :: piece) :: pieces

/-- A text without its leading and trailing white space. -/
def trim (s : List Char) : List Char :=
  ((s.dropWhile isspace).reverse.dropWhile isspace).reverse

/-- Lines the text format ignores: blank lines and lines beginning with `#`. -/
def ignored (line : List Char) : Bool :=
  (trim line).isEmpty ||
  (match line with
    | '#' :: _ => true
    | _ => false)

/-- One transition line `<startState> , <label> , <endState>`, with optional
white space around the three fields. -/
def parseLine (line : List Char) : Except Exn (String × String × String) :=
  match (splitOn ',' line).map trim with
  | [a, b, c] => .ok (String.mk a, String.mk b, String.mk c)
  | _ => .error .parse_error

/-- Modelled from the spec: `ReadFromFile` (its body is not among the
sources), applied to the content of the file.  "The first non-blank line
names the initial state.  Subsequent non-blank lines each have the form
`<startState> , <label> , <endState>` with optional surrounding whitespace.
Blank lines and lines beginning with `#` are ignored.  Duplicate edges are
preserved."  A file without an initial state or with a malformed line is a
`ParseError`. -/
def ReadFromFile (lts : LTS String String) (content : String) :
    Except Exn (LTS String String) :=
  match (splitOn '\n' content.data).filter (fun l => !ignored l) with
  | [] => .error .parse_error
  | first :: rest =>
    match collect parseLine rest with
    | .error e => .error e
    | .ok ts => (lts.set_initial_state (String.mk (trim first)) true).addAll ts

/-- One element of the `transitions` array of a resource document:
`startState`, `label` and `endState` are strings. -/
def parseEdge (t : Json) : Except Exn (String × String × String) := do
  let start_state ← (← t.get "startState").toStr
  let label ← (← t.get "label").toStr
  let end_state ← (← t.get "endState").toStr
  pure (start_state, label, end_state)

/-- Modelled from the spec: `ParseJson` for resources (its body is not among
the sources), which `ReadFromJsonFile` applies to the parsed file.  The
resource format is the "same schema as §4.4 but with atomic string labels
instead of composite-operation objects". -/
def ParseJson (lts : LTS String String) (j : Json) : Except Exn (LTS String String) := do
  let initial ← (← j.get "initialState").toStr
  let ts ← collect parseEdge (← j.get "transitions").items
  (lts.set_initial_state initial true).addAll ts

/-- A state name or label of the text format: not empty, and without comma,
line break, `#` or white space. -/
def PlainName (x : String) : Prop :=
  x.data ≠ [] ∧ ∀ c ∈ x.data, c ≠ ',' ∧ c ≠ '\n' ∧ c ≠ '#' ∧ isspace c = false

/-- The line `start,label,end` of a transition. -/
def renderLine (t : String × String × String) : List Char :=
  t.1.data ++ ',' :: (t.2.1.data ++ ',' :: t.2.2.data)

/-- The text file of a resource: the initial state on the first line, then
one line per transition. -/
def renderText (initial : String) (ts : List (String × String × String)) : String :=
  String.mk (initial.data ++ '\n' :: ts.flatMap (fun t => renderLine t ++ ['\n']))
/-- JSON text of a resource with the given initial state and transitions. -/
def resourceJson (initial : String) (ts : List (String × String × String)) : Json :=
  .object [("initialState", .string initial),
    ("transitions", .array (ts.map (fun t =>
      Json.object [("endState", .string t.2.2), ("label", .string t.2.1),
        ("startState", .string t.1)])))]

end lts

/-! ### Topology (`pcs::Combine`)

`Machine::ComputeTopology` (machine.cpp:38) calls `pcs::Combine`, declared in
`pcs/controller/topology.h`; that file is not among the sources. -/

/-- The moves of resource `i` in the tuple `s`: one edge `(i, a)` to `s` with
component `i` replaced by the target, for each transition of the resource out
of the component `s[i]`, in insertion order. -/
def movesOf (i : Nat) (L : LTS String String) (s : List String) :
    List ((Nat × String) × List String) :=
  match s.get? i with
  | some si => ((L.outgoing si).getD []).map (fun e => ((i, e.1), s.set i e.2))
  | none => []

/-- The moves of the resources numbered `i`, `i + 1`, … in the tuple `s`. -/
def movesFrom (i : Nat) : List (LTS String String) → List String →
    List ((Nat × String) × List String)
  | [], _ => []
  | L :: Ls, s => movesOf i L s ++ movesFrom (i + 1) Ls s

/-- All enabled moves of a tuple, "enumerated in (i,
resource-transition-insertion-order) order". -/
def successors (R : List (LTS String String)) (s : List String) :
    List ((Nat × String) × List String) :=
  movesFrom 0 R s

/-- The work-queue loop of the complete mode: "breadth-first exploration from
the initial tuple, expanding all enabled moves, until the work queue drains".
The head of the queue is expanded: its moves are added with `AddTransition`,
and the targets that were not states yet join the queue.  The first argument
bounds the number of iterations. -/
def explore (R : List (LTS String String)) :
    Nat → LTS (List String) (Nat × String) → List (List String) →
    Option (LTS (List String) (Nat × String))
  | _, topology, [] => some topology
  | 0, _, _ :: _ => none
  | fuel + 1, topology, s :: queue =>
    let moves := successors R s
    let fresh := ((moves.map Prod.snd).filter (fun t => !topology.HasState t)).dedup
    match topology.addAll (moves.map (fun e => (s, e.1, e.2))) with
    | .ok topology1 => explore R fuel topology1 (queue ++ fresh)
    | .error _ => none

/-- Every state name that occurs in the resources: initial states, states and
targets of transitions. -/
def stateNames (R : List (LTS String String)) : List String :=
  R.flatMap (fun L =>
    L.initial_state_ :: (L.states_.map Prod.fst ++
      L.states_.flatMap (fun e => e.2.transitions_.map Prod.snd)))

/-- Modelled from the spec: `pcs::Combine` in complete mode (its body is not
among the sources): "the standard asynchronous parallel composition without
synchronisation", with initial state "the tuple of resource initials", built
by breadth-first exploration.  The exploration is given one iteration per
tuple over the state names of the resources, which is as many as it can
need. -/
def Combine (R : List (LTS String String)) : Option (LTS (List String) (Nat × String)) :=
  explore R ((stateNames R).length ^ R.length + 1)
    ((LTS.new : LTS (List String) (Nat × String)).set_initial_state
      (R.map (fun L => L.initial_state_)) true)
    [R.map (fun L => L.initial_state_)]

/-- The tuples the topology can reach: the tuple of initial states, and the
target of every move of a reachable tuple. -/
inductive Reachable (R : List (LTS String String)) : List String → Prop where
  | initial : Reachable R (R.map (fun L => L.initial_state_))
  | move {s : List String} {e : (Nat × String) × List String} :
      Reachable R s → e ∈ successors R s → Reachable R e.2

/-- All lists of length `n` over the pool `P`. -/
def tuples {α : Type} (P : List α) : Nat → List (List α)
  | 0 => [[]]
  | n + 1 => P.flatMap (fun x => (tuples P n).map (fun t => x :: t))

/-- Invariant of the exploration loop, with the list `done` of the tuples
already expanded: the state map has no repeated key, the initial state is the
tuple of initial states, the states are the expanded and the queued tuples
(each once), a queued tuple has no transition yet, an expanded tuple has
exactly its moves as transitions and their targets are states, every state
is reachable, and the initial tuple is a state. -/
def ExploreInv (R : List (LTS String String)) (topology : LTS (List String) (Nat × String))
    (queue done : List (List String)) : Prop :=
  MapWF topology.states_ ∧
  topology.initial_state_ = R.map (fun L => L.initial_state_) ∧
  (done ++ queue).Nodup ∧
  (∀ s, topology.HasState s = true ↔ s ∈ done ∨ s ∈ queue) ∧
  (∀ s ∈ queue, topology.outgoing s = some []) ∧
  (∀ s ∈ done, topology.outgoing s = some (successors R s) ∧
    ∀ e ∈ successors R s, topology.HasState e.2 = true) ∧
  (∀ s, topology.HasState s = true → Reachable R s) ∧
  topology.HasState (R.map (fun L => L.initial_state_)) = true

/-! ### Machine (`src/pcs/machine/machine.cpp`) -/

/-- The class `Machine`, as `machine.cpp` uses it: the resources and the
topology, an `LTS<std::string>`. -/
structure Machine where
  resources_ : List (LTS String String)
  topology_ : LTS String String
deriving DecidableEq, Repr

namespace Machine

/-- Embedding of `ComputeTopology` (machine.cpp:38).  `pcs::Combine` is
declared in `pcs/controller/topology.h`, which is not among the sources; it
is a parameter here. -/
def ComputeTopology (combine : List (LTS String String) → LTS String String)
    (m : Machine) : Machine :=
  { m with topology_ := combine m.resources_ }

/-- Embedding of `AddResource(resource)` (machine.cpp:65 and machine.cpp:76):
the resource is appended when the topology has no state; the other branch is
an empty `@Todo`. -/
def AddResource (m : Machine) (resource : LTS String String) : Machine :=
  if m.topology_.NumOfStates = 0 then
    { m with resources_ := m.resources_ ++ [resource] }
  else
    m

end Machine

/-! ## Theorems -/

section MapLemmas

variable {K V : Type} [DecidableEq K]

theorem mapErase_cons (key : K) (e : K × V) (m : List (K × V)) :
    mapErase key (e :: m) = if e.1 = key then mapErase key m else e :: mapErase key m := by
  by_cases h : e.1 = key <;> simp [mapErase, List.filter_cons, h]

theorem mapFind_cons (key : K) (e : K × V) (m : List (K × V)) :
    mapFind key (e :: m) = if e.1 = key then some e.2 else mapFind key m := rfl

theorem mapFind_erase_self (key : K) (m : List (K × V)) :
    mapFind key (mapErase key m) = none := by
  induction m with
  | nil => rfl
  | cons e m ih =>
    rw [mapErase_cons]
    by_cases h : e.1 = key
    · rw [if_pos h]; exact ih
    · rw [if_neg h, mapFind_cons, if_neg h]; exact ih

theorem mapFind_erase_ne {key j : K} (h : j ≠ key) (m : List (K × V)) :
    mapFind j (mapErase key m) = mapFind j m := by
  induction m with
  | nil => rfl
  | cons e m ih =>
    rw [mapErase_cons]
    by_cases he : e.1 = key
    · have hj : ¬ e.1 = j := fun h2 => h (h2 ▸ he)
      rw [if_pos he, mapFind_cons, if_neg hj]; exact ih
    · rw [if_neg he, mapFind_cons, mapFind_cons, ih]

end MapLemmas

section EraseLemmas

variable {K T : Type} [DecidableEq K]

theorem HasState_iff_find (lts : LTS K T) (key : K) :
    lts.HasState key = true ↔ ∃ s, mapFind key lts.states_ = some s := by
  unfold LTS.HasState mapContains
  rw [Option.isSome_iff_exists]

/-- Claim C11: for a key `k` that is a state, `EraseShallow(k)` returns true,
removes `k` from the state map, keeps the initial state, and leaves the entry
of every other key as it was; a transition of another state whose target is
`k` is therefore still there afterwards (dangling). -/
theorem EraseShallow_removes_only_key (lts : LTS K T) (k : K)
    (hk : lts.HasState k = true) :
    (lts.EraseShallow k).1 = true ∧
    (lts.EraseShallow k).2.HasState k = false ∧
    (lts.EraseShallow k).2.initial_state_ = lts.initial_state_ ∧
    (∀ j, j ≠ k →
      mapFind j (lts.EraseShallow k).2.states_ = mapFind j lts.states_) ∧
    (∀ j s label, j ≠ k → mapFind j lts.states_ = some s →
      (label, k) ∈ s.transitions_ →
      ∃ s2, mapFind j (lts.EraseShallow k).2.states_ = some s2 ∧
        (label, k) ∈ s2.transitions_) := by
  have hE : lts.EraseShallow k = (true, { lts with states_ := mapErase k lts.states_ }) := by
    simp [LTS.EraseShallow, hk]
  rw [hE]
  refine ⟨rfl, ?_, rfl, ?_, ?_⟩
  · simp [LTS.HasState, mapContains, mapFind_erase_self]
  · intro j hj
    exact mapFind_erase_ne hj _
  · intro j s label hj hs hmem
    exact ⟨s, by simpa [mapFind_erase_ne hj] using hs, hmem⟩

/-- Witness for C11: erasing `"k"` from the LTS `a -x-> k` leaves the edge of
`"a"` to `"k"` in place. -/
theorem EraseShallow_removes_only_key_witness :
    (LTS.EraseShallow (⟨[("a", ⟨[("x", "k")]⟩), ("k", ⟨[]⟩)], "a"⟩ : LTS String String) "k").1
        = true ∧
    (LTS.EraseShallow (⟨[("a", ⟨[("x", "k")]⟩), ("k", ⟨[]⟩)], "a"⟩ : LTS String String) "k").2.HasState
        "k" = false ∧
    mapFind "a"
        (LTS.EraseShallow (⟨[("a", ⟨[("x", "k")]⟩), ("k", ⟨[]⟩)], "a"⟩ :
          LTS String String) "k").2.states_
      = some ⟨[("x", "k")]⟩ := by
  have h := EraseShallow_removes_only_key
    (⟨[("a", ⟨[("x", "k")]⟩), ("k", ⟨[]⟩)], "a"⟩ : LTS String String) "k" (by decide)
  exact ⟨h.1, h.2.1, by rw [h.2.2.2.1 "a" (by decide)]; rfl⟩

theorem filter_eraseIdx_of_false {α : Type} (p : α → Bool) (v : List α) (i : Nat)
    (h : i < v.length) (hp : p (v.get ⟨i, h⟩) = false) :
    (v.eraseIdx i).filter p = v.filter p := by
  have hv : v = v.take i ++ v.get ⟨i, h⟩ :: v.drop (i + 1) := by
    simp
  rw [List.eraseIdx_eq_take_drop_succ]
  conv_rhs => rw [hv]
  rw [List.filter_append, List.filter_append, List.filter_cons_of_neg (by simpa using hp)]

theorem getLast?_eraseIdx_of_lt {α : Type} (v : List α) (i : Nat)
    (h : i + 1 < v.length) : (v.eraseIdx i).getLast? = v.getLast? := by
  have hne : v.drop (i + 1) ≠ [] := by
    intro h0
    have := congrArg List.length h0
    simp at this
    omega
  have hv : v.getLast? = (v.take (i + 1) ++ v.drop (i + 1)).getLast? := by
    rw [List.take_append_drop]
  rw [List.eraseIdx_eq_take_drop_succ, hv, List.getLast?_append_of_ne_nil _ hne,
    List.getLast?_append_of_ne_nil _ hne]

/-- Whatever the loop of `EraseDeep` returns, it has removed only transitions
whose target is `key`: the other transitions are kept, in order. -/
theorem eraseLoop_filter (key : K) (v : List (T × K)) (it : Nat) :
    ∀ r, LTS.eraseLoop key v it = some r →
      r.filter (fun e => decide (e.2 ≠ key)) = v.filter (fun e => decide (e.2 ≠ key)) := by
  induction v, it using LTS.eraseLoop.induct key with
  | case1 v it h hk ih =>
    intro r hr
    rw [LTS.eraseLoop, dif_pos h, if_pos hk] at hr
    rw [ih r hr]
    exact filter_eraseIdx_of_false _ v it h (by simpa using hk)
  | case2 v it h hk ih =>
    intro r hr
    rw [LTS.eraseLoop, dif_pos h, if_neg hk] at hr
    exact ih r hr
  | case3 v h =>
    intro r hr
    rw [LTS.eraseLoop, dif_neg h, if_pos rfl] at hr
    cases hr; rfl
  | case4 v it h h2 =>
    intro r hr
    rw [LTS.eraseLoop, dif_neg h, if_neg h2] at hr
    cases hr

/-- The loop of `EraseDeep` stays inside the vector, and so returns, whenever
the last transition of the vector does not target `key`. -/
theorem eraseLoop_isSome_of_last (key : K) (v : List (T × K)) (it : Nat) :
    it ≤ v.length → (∀ e, v.getLast? = some e → e.2 ≠ key) →
      (LTS.eraseLoop key v it).isSome = true := by
  induction v, it using LTS.eraseLoop.induct key with
  | case1 v it h hk ih =>
    intro _ hlast
    rw [LTS.eraseLoop, dif_pos h, if_pos hk]
    have hlt : it + 1 < v.length := by
      by_contra hcon
      have hit : it = v.length - 1 := by omega
      have hne : v ≠ [] := by
        intro h0; rw [h0] at h; simp at h
      have hl : v.getLast? = some (v.get ⟨it, h⟩) := by
        rw [List.getLast?_eq_getLast _ hne, List.getLast_eq_getElem]
        simp [hit]
      exact hlast _ hl hk
    apply ih
    · rw [List.length_eraseIdx, if_pos h]; omega
    · rw [getLast?_eraseIdx_of_lt v it hlt]; exact hlast
  | case2 v it h hk ih =>
    intro _ hlast
    rw [LTS.eraseLoop, dif_pos h, if_neg hk]
    exact ih (by omega) hlast
  | case3 v h =>
    intro _ _
    rw [LTS.eraseLoop, dif_neg h, if_pos rfl]; rfl
  | case4 v it h h2 =>
    intro hle _
    omega

end EraseLemmas

section LabelLemmas

/-- Claim C20: `StringToTransfer` and `StringToOperation` agree on every
label: the first returns the transfer `(d, h)` exactly when the second does,
it returns the empty optional exactly when the second returns a no-op or a
generic action, and both throw the same exception on the same labels. -/
theorem StringToTransfer_agrees_with_StringToOperation (label : String) :
    (∀ d h, StringToTransfer label = .ok (some ⟨d, h⟩) ↔
      StringToOperation label = .ok (.transfer ⟨d, h⟩)) ∧
    (StringToTransfer label = .ok none ↔
      (StringToOperation label = .ok .nop ∨
        ∃ name, StringToOperation label = .ok (.operation name))) ∧
    (∀ e, StringToTransfer label = .error e ↔ StringToOperation label = .error e) := by
  unfold StringToTransfer StringToOperation
  by_cases hin : findSub "in:".data label.data = true
  · simp only [hin, if_true]
    cases substr label.data 3 with
    | error e => simp [bind, Except.bind]
    | ok s =>
      simp only [bind, Except.bind]
      cases stoull s with
      | error e => simp
      | ok n => simp [pure, Except.pure]
  · simp only [hin, if_false]
    by_cases hout : findSub "out:".data label.data = true
    · simp only [hout, if_true]
      cases substr label.data 4 with
      | error e => simp [bind, Except.bind]
      | ok s =>
        simp only [bind, Except.bind]
        cases stoull s with
        | error e => simp
        | ok n => simp [pure, Except.pure]
    · simp only [hout, if_false]
      by_cases hnop : label = "nop"
      · simp [hnop, pure, Except.pure]
      · simp [hnop, pure, Except.pure]

end LabelLemmas

section EraseDeepEvaluation

variable {K T : Type} [DecidableEq K]

/-- The value `EraseShallow` returns tells whether the key was a state, and a
key that was not a state leaves the LTS as it was. -/
theorem EraseShallow_returns_iff (lts : LTS K T) (k : K) :
    ((lts.EraseShallow k).1 = true ↔ lts.HasState k = true) ∧
    (lts.HasState k = false → (lts.EraseShallow k).2 = lts) := by
  unfold LTS.EraseShallow
  by_cases h : lts.HasState k = true
  · simp [h]
  · simp [h]

/-- On a key that is not a state `EraseDeep` returns false and leaves the LTS
as it was. -/
theorem EraseDeep_absent (lts : LTS K T) (k : K) (h : lts.HasState k = false) :
    lts.EraseDeep k = some (false, lts) := by
  simp [LTS.EraseDeep, h]

/-- Evaluation for claim C18: in the LTS with `a -y-> b`, `a -x-> k` the last
transition of `a` targets `k`; `EraseDeep("k")` erases it, steps the iterator
past `end()` and has no defined result, so the transition `a -y-> b` is not
kept by a returning call. -/
theorem EraseDeep_trailing_target_undefined :
    LTS.HasState (⟨[("a", ⟨[("y", "b"), ("x", "k")]⟩), ("b", ⟨[]⟩), ("k", ⟨[]⟩)], "a"⟩ :
      LTS String String) "k" = true ∧
    LTS.EraseDeep (⟨[("a", ⟨[("y", "b"), ("x", "k")]⟩), ("b", ⟨[]⟩), ("k", ⟨[]⟩)], "a"⟩ :
      LTS String String) "k" = none := by
  constructor
  · decide
  · simp [LTS.EraseDeep, LTS.HasState, mapContains, mapFind, mapErase, LTS.eraseTargets,
      LTS.eraseLoop]

/-- Evaluation for claim C19: `"k"` is a state of the LTS `a -x-> k`, yet
`EraseDeep("k")` does not return true: the loop leaves the vector of `a` and
the call has no defined result. -/
theorem EraseDeep_state_without_result :
    LTS.HasState (⟨[("a", ⟨[("x", "k")]⟩), ("k", ⟨[]⟩)], "a"⟩ : LTS String String) "k"
      = true ∧
    LTS.EraseDeep (⟨[("a", ⟨[("x", "k")]⟩), ("k", ⟨[]⟩)], "a"⟩ : LTS String String) "k"
      ≠ some (true, ⟨[("a", ⟨[]⟩)], "a"⟩) ∧
    LTS.EraseDeep (⟨[("a", ⟨[("x", "k")]⟩), ("k", ⟨[]⟩)], "a"⟩ : LTS String String) "k"
      = none := by
  refine ⟨by decide, ?_, ?_⟩ <;>
  simp [LTS.EraseDeep, LTS.HasState, mapContains, mapFind, mapErase, LTS.eraseTargets,
      LTS.eraseLoop]

end EraseDeepEvaluation

section RecipeParsing

theorem parseStrings_stringsJson (xs : List String) :
    parseStrings (stringsJson xs) = .ok xs := by
  unfold parseStrings stringsJson
  simp only [Json.items]
  induction xs with
  | nil => rfl
  | cons x xs ih =>
    simp only [List.map_cons, collect, ih, Json.toStr]

theorem parseObservable_toJson (o : ObservableDoc) :
    parseObservable o.toJson = .ok o.entry := by
  simp [parseObservable, ObservableDoc.toJson, Json.get, mapFind, Json.toStr,
    parseStrings_stringsJson, ObservableDoc.entry, bind, Except.bind, pure, Except.pure]

theorem collect_parseObservable (os : List ObservableDoc) :
    collect parseObservable (os.map ObservableDoc.toJson) = .ok (os.map ObservableDoc.entry) := by
  induction os with
  | nil => rfl
  | cons o os ih =>
    simp only [List.map_cons, collect, ih, parseObservable_toJson]

theorem parseLabel_toJson (t : TransitionDoc) :
    parseLabel t.toJson = .ok t.label.operation := by
  cases hg : t.label.guard with
  | none =>
    simp [parseLabel, TransitionDoc.toJson, LabelDoc.toJson, Json.get, mapFind, hg,
      Json.isNotEmptyObject, Json.items, collect_parseObservable, LabelDoc.operation,
      CompositeOperation.new, bind, Except.bind, pure, Except.pure]
  | some g =>
    simp [parseLabel, TransitionDoc.toJson, LabelDoc.toJson, GuardDoc.toJson, Json.get, mapFind,
      hg, Json.isNotEmptyObject, Json.items, collect_parseObservable, LabelDoc.operation,
      Json.toStr, parseStrings_stringsJson,
      CompositeOperation.new, bind, Except.bind, pure, Except.pure]

theorem parseTransition_toJson (lts : LTS String CompositeOperation) (t : TransitionDoc) :
    parseTransition lts t.toJson
      = lts.AddTransition t.startState t.label.operation t.endState true := by
  unfold parseTransition
  rw [parseLabel_toJson]
  simp [TransitionDoc.toJson, Json.get, mapFind, Json.toStr, bind, Except.bind]

end RecipeParsing

section AddTransitionLemmas

variable {K T : Type} [DecidableEq K]

theorem mapFind_append {V : Type} (j : K) (m m2 : List (K × V)) :
    mapFind j (m ++ m2) = match mapFind j m with
      | some v => some v
      | none => mapFind j m2 := by
  induction m with
  | nil => simp [mapFind]
  | cons e m ih =>
    by_cases h : e.1 = j
    · simp [mapFind, h]
    · simp only [List.cons_append, mapFind, if_neg h]; exact ih

theorem mapFind_emplace {V : Type} (j k : K) (v : V) (m : List (K × V)) :
    mapFind j (mapEmplace k v m) = match mapFind j m with
      | some x => some x
      | none => if k = j then some v else none := by
  unfold mapEmplace
  by_cases hc : mapContains k m = true
  · rw [if_pos hc]
    cases hj : mapFind j m with
    | some x => rfl
    | none =>
      have hkj : ¬ k = j := by
        intro h; subst h
        simp [mapContains, hj] at hc
      simp [hkj]
  · rw [if_neg hc, mapFind_append]
    cases hj : mapFind j m with
    | some x => rfl
    | none => simp [mapFind]

theorem mapFind_modify {V : Type} (j k : K) (f : V → V) (m : List (K × V)) :
    mapFind j (mapModify k f m) = if j = k then (mapFind j m).map f else mapFind j m := by
  induction m with
  | nil => simp [mapModify, mapFind]
  | cons e m ih =>
    unfold mapModify at ih ⊢
    simp only [List.map_cons, mapFind_cons]
    by_cases hek : e.1 = k
    · by_cases hej : e.1 = j
      · have hjk : j = k := hej ▸ hek
        simp [hek, hjk]
      · have hjk : ¬ j = k := fun h => hej (h ▸ hek)
        simp only [if_pos hek, if_neg hej, ih, if_neg hjk]
    · by_cases hej : e.1 = j
      · have hjk : ¬ j = k := fun h => hek (h ▸ hej)
        simp [hek, hej, hjk]
      · simp only [if_neg hek, if_neg hej, ih]

theorem AddStateWith_snd (lts : LTS K T) (name : K) (st : State K T) :
    (lts.AddStateWith name st).2 = { lts with states_ := mapEmplace name st lts.states_ } := by
  unfold LTS.AddStateWith
  by_cases h : lts.HasState name = true
  · have hc : mapContains name lts.states_ = true := h
    simp [h, mapEmplace, hc]
  · simp [h]

theorem AddStateWith_fst (lts : LTS K T) (name : K) (st : State K T) :
    (lts.AddStateWith name st).1 = !lts.HasState name := by
  unfold LTS.AddStateWith
  by_cases h : lts.HasState name = true <;> simp [h]

/-- With `create_missing_states = true`, `AddTransition` never throws: it
inserts the two states where absent and appends the edge to the start state. -/
theorem AddTransition_create (lts : LTS K T) (a : K) (l : T) (b : K) :
    lts.AddTransition a l b true = .ok
      ⟨mapModify a (fun s => s.AddTransition l b)
        (mapEmplace b State.new (mapEmplace a State.new lts.states_)), lts.initial_state_⟩ := by
  have h1 : (if (!lts.HasState a && true) = true then (lts.AddStateWith a State.new).2 else lts)
      = ⟨mapEmplace a State.new lts.states_, lts.initial_state_⟩ := by
    by_cases h : lts.HasState a = true
    · have hc : mapContains a lts.states_ = true := h
      simp [h, mapEmplace, hc]
    · simp [h, AddStateWith_snd]
  have h2 : ∀ x : LTS K T,
      (if (!x.HasState b && true) = true then (x.AddStateWith b State.new).2 else x)
      = ⟨mapEmplace b State.new x.states_, x.initial_state_⟩ := by
    intro x
    by_cases h : x.HasState b = true
    · have hc : mapContains b x.states_ = true := h
      simp [h, mapEmplace, hc]
    · simp [h, AddStateWith_snd]
  unfold LTS.AddTransition LTS.AddTransitionRun
  simp only [h1, h2]
  have hf : ∃ s, mapFind a (mapEmplace b (State.new : State K T)
      (mapEmplace a State.new lts.states_)) = some s := by
    rw [mapFind_emplace, mapFind_emplace]
    cases mapFind a lts.states_ with
    | some x => exact ⟨x, rfl⟩
    | none => exact ⟨State.new, by simp⟩
  obtain ⟨s, hs⟩ := hf
  simp [hs]

theorem outgoing_AddTransition (lts : LTS K T) (a : K) (l : T) (b : K) (s : K) :
    LTS.outgoing (⟨mapModify a (fun s => s.AddTransition l b)
        (mapEmplace b State.new (mapEmplace a State.new lts.states_)), lts.initial_state_⟩ :
        LTS K T) s
      = if s = a then some ((lts.outgoing a).getD [] ++ [(l, b)])
        else if s = b then some ((lts.outgoing b).getD [])
        else lts.outgoing s := by
  unfold LTS.outgoing
  simp only [mapFind_modify, mapFind_emplace]
  by_cases hsa : s = a
  · subst hsa
    cases mapFind s lts.states_ with
    | some x => simp [State.AddTransition]
    | none => simp [State.AddTransition, State.new]
  · have hsa2 : ¬ a = s := fun h => hsa h.symm
    simp only [if_neg hsa, if_neg hsa2]
    by_cases hsb : s = b
    · subst hsb
      cases mapFind s lts.states_ with
      | some x => simp
      | none => simp [State.new]
    · have hsb2 : ¬ b = s := fun h => hsb h.symm
      simp only [if_neg hsb, if_neg hsb2]
      cases mapFind s lts.states_ with
      | some x => simp
      | none => simp

end AddTransitionLemmas

section WellFormedLemmas

variable {K T : Type} [DecidableEq K]

theorem mapFind_eq_none_iff {V : Type} (k : K) (m : List (K × V)) :
    mapFind k m = none ↔ k ∉ m.map Prod.fst := by
  induction m with
  | nil => simp [mapFind]
  | cons e m ih =>
    by_cases h : e.1 = k
    · simp [mapFind, h]
    · have h2 : ¬ k = e.1 := fun h3 => h h3.symm
      simp [mapFind, h, h2, ih]

theorem mapContains_eq_false_iff {V : Type} (k : K) (m : List (K × V)) :
    mapContains k m = false ↔ k ∉ m.map Prod.fst := by
  unfold mapContains
  rw [← mapFind_eq_none_iff]
  cases mapFind k m <;> simp

theorem MapWF_emplace {V : Type} (k : K) (v : V) (m : List (K × V)) (h : MapWF m) :
    MapWF (mapEmplace k v m) := by
  unfold mapEmplace
  by_cases hc : mapContains k m = true
  · rw [if_pos hc]; exact h
  · rw [if_neg hc]
    have hk : k ∉ m.map Prod.fst :=
      (mapContains_eq_false_iff k m).1 (by simpa using hc)
    unfold MapWF at h ⊢
    rw [List.map_append, List.nodup_append]
    refine ⟨h, by simp, ?_⟩
    intro x hx hx2
    simp only [List.map_cons, List.map_nil, List.mem_singleton] at hx2
    exact hk (hx2 ▸ hx)

theorem map_fst_mapModify {V : Type} (k : K) (f : V → V) (m : List (K × V)) :
    (mapModify k f m).map Prod.fst = m.map Prod.fst := by
  unfold mapModify
  rw [List.map_map]
  apply List.map_congr_left
  intro e _
  by_cases h : e.1 = k <;> simp [h]

theorem MapWF_modify {V : Type} (k : K) (f : V → V) (m : List (K × V)) (h : MapWF m) :
    MapWF (mapModify k f m) := by
  unfold MapWF
  rw [map_fst_mapModify]; exact h

theorem MapWF_erase {V : Type} (k : K) (m : List (K × V)) (h : MapWF m) :
    MapWF (mapErase k m) := by
  unfold MapWF mapErase
  exact List.Nodup.sublist (List.Sublist.map _ (List.filter_sublist _)) h

theorem mapModify_of_not_mem {V : Type} (k : K) (f : V → V) (m : List (K × V))
    (h : k ∉ m.map Prod.fst) : mapModify k f m = m := by
  unfold mapModify
  conv_rhs => rw [← List.map_id m]
  apply List.map_congr_left
  intro e he
  have : ¬ e.1 = k := by
    intro h2
    exact h (h2 ▸ List.mem_map_of_mem Prod.fst he)
  simp [this]

theorem NumOfTransitions_emplace (k : K) (m : List (K × State K T)) :
    ((mapEmplace k State.new m).map (fun e => e.2.transitions_.length)).sum
      = (m.map (fun e => e.2.transitions_.length)).sum := by
  unfold mapEmplace
  by_cases hc : mapContains k m = true
  · rw [if_pos hc]
  · rw [if_neg hc]; simp [State.new]

theorem NumOfTransitions_modify (k : K) (l : T) (b : K) (m : List (K × State K T))
    (hwf : MapWF m) (hk : k ∈ m.map Prod.fst) :
    ((mapModify k (fun s => s.AddTransition l b) m).map
        (fun e => e.2.transitions_.length)).sum
      = (m.map (fun e => e.2.transitions_.length)).sum + 1 := by
  induction m with
  | nil => simp at hk
  | cons e m ih =>
    unfold MapWF at hwf
    rw [List.map_cons, List.nodup_cons] at hwf
    by_cases hek : e.1 = k
    · have hnot : k ∉ m.map Prod.fst := hek ▸ hwf.1
      have htail := mapModify_of_not_mem k (fun s : State K T => s.AddTransition l b) m hnot
      have hcons : mapModify k (fun s : State K T => s.AddTransition l b) (e :: m)
          = (e.1, e.2.AddTransition l b) :: m := by
        have h0 : mapModify k (fun s : State K T => s.AddTransition l b) (e :: m)
            = (e.1, e.2.AddTransition l b)
              :: mapModify k (fun s : State K T => s.AddTransition l b) m := by
          simp [mapModify, hek]
        rw [h0, htail]
      rw [hcons]
      simp only [List.map_cons, List.sum_cons, State.AddTransition,
        List.length_append, List.length_singleton]
      omega
    · have hk2 : k ∈ m.map Prod.fst := by
        rw [List.map_cons, List.mem_cons] at hk
        rcases hk with h | h
        · exact absurd h.symm hek
        · exact h
      have hcons : mapModify k (fun s : State K T => s.AddTransition l b) (e :: m)
          = e :: mapModify k (fun s : State K T => s.AddTransition l b) m := by
        simp [mapModify, hek]
      rw [hcons]
      simp only [List.map_cons, List.sum_cons, ih hwf.2 hk2]
      omega

/-- The closed form of `AddTransition` with `create_missing_states = true`
keeps the key list duplicate-free and adds exactly one transition. -/
theorem AddTransition_wf_count (lts : LTS K T) (a : K) (l : T) (b : K)
    (hwf : MapWF lts.states_) :
    MapWF (mapModify a (fun s => s.AddTransition l b)
        (mapEmplace b State.new (mapEmplace a State.new lts.states_))) ∧
    LTS.NumOfTransitions (⟨mapModify a (fun s => s.AddTransition l b)
        (mapEmplace b State.new (mapEmplace a State.new lts.states_)), lts.initial_state_⟩ :
        LTS K T) = lts.NumOfTransitions + 1 := by
  have hwf2 : MapWF (mapEmplace b (State.new : State K T)
      (mapEmplace a State.new lts.states_)) :=
    MapWF_emplace _ _ _ (MapWF_emplace _ _ _ hwf)
  refine ⟨MapWF_modify _ _ _ hwf2, ?_⟩
  unfold LTS.NumOfTransitions
  have hmem : a ∈ (mapEmplace b (State.new : State K T)
      (mapEmplace a State.new lts.states_)).map Prod.fst := by
    by_contra hcon
    have h0 := (mapFind_eq_none_iff a _).2 hcon
    rw [mapFind_emplace, mapFind_emplace] at h0
    cases hx : mapFind a lts.states_ with
    | some x => simp [hx] at h0
    | none => simp [hx] at h0
  simp only
  rw [NumOfTransitions_modify a l b _ hwf2 hmem, NumOfTransitions_emplace,
    NumOfTransitions_emplace]

end WellFormedLemmas

section AddAllLemmas

variable {K T : Type} [DecidableEq K]

theorem addAll_nil (lts : LTS K T) : lts.addAll [] = .ok lts := rfl

theorem addAll_cons (lts : LTS K T) (t : K × T × K) (ts : List (K × T × K)) :
    lts.addAll (t :: ts) = LTS.addAll
      ⟨mapModify t.1 (fun s => s.AddTransition t.2.1 t.2.2)
        (mapEmplace t.2.2 State.new (mapEmplace t.1 State.new lts.states_)),
        lts.initial_state_⟩ ts := by
  unfold LTS.addAll
  rw [List.foldlM_cons, AddTransition_create]
  rfl

/-- A run of `AddTransition` calls with `create_missing_states = true` returns;
it keeps the initial state, adds one transition per call, and gives every
state the transitions that start there, appended in call order. -/
theorem addAll_spec (ts : List (K × T × K)) : ∀ lts0 : LTS K T,
    ∃ lts1, lts0.addAll ts = .ok lts1 ∧
      lts1.initial_state_ = lts0.initial_state_ ∧
      (MapWF lts0.states_ → MapWF lts1.states_ ∧
        lts1.NumOfTransitions = lts0.NumOfTransitions + ts.length) ∧
      ∀ s, lts1.outgoing s = match lts0.outgoing s with
        | some v => some (v ++ LTS.edgesFrom ts s)
        | none => if LTS.mentions ts s then some (LTS.edgesFrom ts s) else none := by
  induction ts with
  | nil =>
    intro lts0
    refine ⟨lts0, rfl, rfl, fun h => ⟨h, rfl⟩, ?_⟩
    intro s
    cases lts0.outgoing s <;> simp [LTS.edgesFrom, LTS.mentions]
  | cons t ts ih =>
    intro lts0
    obtain ⟨lts1, hrun, hinit, hwf, hout⟩ := ih
      ⟨mapModify t.1 (fun s => s.AddTransition t.2.1 t.2.2)
        (mapEmplace t.2.2 State.new (mapEmplace t.1 State.new lts0.states_)),
        lts0.initial_state_⟩
    refine ⟨lts1, by rw [addAll_cons]; exact hrun, hinit, ?_, ?_⟩
    · intro h0
      have hstep := AddTransition_wf_count lts0 t.1 t.2.1 t.2.2 h0
      obtain ⟨hw1, hn1⟩ := hwf hstep.1
      refine ⟨hw1, ?_⟩
      rw [hn1, hstep.2, List.length_cons]; omega
    · intro s
      rw [hout s, outgoing_AddTransition]
      by_cases hsa : s = t.1
      · subst hsa
        cases h0 : lts0.outgoing t.1 with
        | some v => simp [LTS.edgesFrom, List.filter_cons]
        | none => simp [LTS.edgesFrom, LTS.mentions, List.filter_cons]
      · have hta : ¬ t.1 = s := fun h => hsa h.symm
        by_cases hsb : s = t.2.2
        · subst hsb
          cases h0 : lts0.outgoing t.2.2 with
          | some v => simp [hsa, hta, LTS.edgesFrom, List.filter_cons]
          | none => simp [hsa, hta, LTS.edgesFrom, LTS.mentions, List.filter_cons]
        · have htb : ¬ t.2.2 = s := fun h => hsb h.symm
          cases h0 : lts0.outgoing s with
          | some v => simp [hsa, hsb, hta, htb, LTS.edgesFrom, List.filter_cons]
          | none =>
            have d1 : decide (t.1 = s) = false := by simpa using hta
            have d2 : decide (t.2.2 = s) = false := by simpa using htb
            simp only [if_neg hsa, if_neg hsb, h0, LTS.edgesFrom, LTS.mentions, List.filter_cons,
              List.any_cons, d1, d2, Bool.false_or]
            simp

theorem mentions_perm {ts ts2 : List (K × T × K)} (hp : ts.Perm ts2) (s : K) :
    LTS.mentions ts s = LTS.mentions ts2 s := by
  rw [Bool.eq_iff_iff]
  unfold LTS.mentions
  simp only [List.any_eq_true]
  constructor
  · rintro ⟨t, ht, h⟩; exact ⟨t, hp.mem_iff.1 ht, h⟩
  · rintro ⟨t, ht, h⟩; exact ⟨t, hp.mem_iff.2 ht, h⟩

theorem edgesFrom_perm {ts ts2 : List (K × T × K)} (hp : ts.Perm ts2) (s : K) :
    (LTS.edgesFrom ts s).Perm (LTS.edgesFrom ts2 s) :=
  (hp.filter _).map _

end AddAllLemmas

section RecipeTheorems

theorem foldlM_parseTransition (ts : List TransitionDoc) :
    ∀ lts : LTS String CompositeOperation,
      (ts.map TransitionDoc.toJson).foldlM parseTransition lts
        = lts.addAll (ts.map TransitionDoc.triple) := by
  induction ts with
  | nil => intro lts; rfl
  | cons t ts ih =>
    intro lts
    rw [List.map_cons, List.foldlM_cons, parseTransition_toJson, List.map_cons, addAll_cons,
      AddTransition_create]
    exact ih _

/-- On a document of the schema, `ParseJson` sets the initial state and then
runs `AddTransition` once per element of `transitions`, in order. -/
theorem ParseJson_toJson (lts : LTS String CompositeOperation) (d : RecipeDoc) :
    ParseJson lts d.toJson
      = (lts.set_initial_state d.initialState true).addAll
          (d.transitions.map TransitionDoc.triple) := by
  unfold ParseJson
  simp only [RecipeDoc.toJson, Json.get, mapFind, Json.toStr, Json.items, bind, Except.bind,
    if_true]
  simp only [String.reduceEq, if_false, if_true]
  exact foldlM_parseTransition _ _

theorem set_initial_state_new {K T : Type} [DecidableEq K] [Inhabited K] (initial : K) :
    (LTS.new : LTS K T).set_initial_state initial true
      = ⟨[(initial, State.new)], initial⟩ := by
  simp [LTS.set_initial_state, LTS.new, LTS.HasState, mapContains, mapFind, LTS.AddStateWith,
    mapEmplace]

/-- Claim C12: for every recipe document, `ParseJson` into an empty recipe LTS
returns an LTS whose initial state is the document's `initialState`, and that
key is a state of it, whatever the transitions mention; with an empty
`transitions` array the LTS is that one state alone. -/
theorem ParseJson_initial_state (d : RecipeDoc) :
    (∃ lts, ParseJson LTS.new d.toJson = .ok lts ∧
      lts.initial_state_ = d.initialState ∧
      lts.HasState d.initialState = true) ∧
    ParseJson LTS.new (RecipeDoc.toJson ⟨d.initialState, []⟩)
      = .ok ⟨[(d.initialState, State.new)], d.initialState⟩ := by
  constructor
  · rw [ParseJson_toJson, set_initial_state_new]
    obtain ⟨lts1, hrun, hinit, _, hout⟩ :=
      addAll_spec (d.transitions.map TransitionDoc.triple)
        (⟨[(d.initialState, State.new)], d.initialState⟩ : LTS String CompositeOperation)
    refine ⟨lts1, hrun, hinit, ?_⟩
    have h := hout d.initialState
    simp only [LTS.outgoing, mapFind, if_true, Option.map_some'] at h
    unfold LTS.HasState mapContains
    cases hf : mapFind d.initialState lts1.states_ with
    | some x => rfl
    | none => rw [hf] at h; simp at h
  · rw [ParseJson_toJson, set_initial_state_new]
    rfl

/-- Claim C13: for every transition of a recipe document, the composite
operation `ParseJson` puts on the LTS transition has no guard (empty name,
no inputs) when the label's guard is the empty object, and otherwise has the
name and the inputs of the JSON guard, in document order; empty `sequential`
and `parallel` arrays are accepted and give empty lists. -/
theorem ParseJson_guard (lts : LTS String CompositeOperation) (t : TransitionDoc) :
    ∃ co, parseLabel t.toJson = .ok co ∧
      parseTransition lts t.toJson = lts.AddTransition t.startState co t.endState true ∧
      (t.label.guard = none → co.guard = (⟨""⟩, [])) ∧
      (∀ g, t.label.guard = some g → co.guard = (⟨g.name⟩, g.input)) ∧
      (t.label.sequential = [] → co.sequential = []) ∧
      (t.label.parallel = [] → co.parallel = []) := by
  refine ⟨t.label.operation, parseLabel_toJson t, parseTransition_toJson lts t, ?_, ?_, ?_, ?_⟩
  · intro h; simp [LabelDoc.operation, h]
  · intro g h; simp [LabelDoc.operation, h]
  · intro h; simp [LabelDoc.operation, h]
  · intro h; simp [LabelDoc.operation, h]

/-- Claim C17: for every recipe document, `ParseJson` into an empty recipe LTS
returns an LTS with one transition per element of `transitions` (so
`NumOfTransitions` is the length of the array); a state has, in document
order, one transition per element that starts there, leading to the
element's `endState` and labelled with the composite operation that lists the
element's sequential observables and its parallel observables in document
order, each with its name, inputs and outputs; the states are the initial
state and the start and end states of the elements. -/
theorem ParseJson_transitions (d : RecipeDoc) :
    ∃ lts, ParseJson LTS.new d.toJson = .ok lts ∧
      lts.NumOfTransitions = d.transitions.length ∧
      (∀ s, (s = d.initialState ∨ ∃ t ∈ d.transitions, t.startState = s ∨ t.endState = s) →
        lts.outgoing s = some
          ((d.transitions.filter (fun t => decide (t.startState = s))).map
            (fun t => (t.label.operation, t.endState)))) ∧
      (∀ s, ¬ (s = d.initialState ∨ ∃ t ∈ d.transitions, t.startState = s ∨ t.endState = s) →
        lts.HasState s = false) ∧
      (∀ t ∈ d.transitions,
        t.label.operation.sequential
          = t.label.sequential.map (fun o => (⟨o.name⟩, o.input, o.output)) ∧
        t.label.operation.parallel
          = t.label.parallel.map (fun o => (⟨o.name⟩, o.input, o.output))) := by
  rw [ParseJson_toJson, set_initial_state_new]
  obtain ⟨lts1, hrun, _, hwf, hout⟩ :=
    addAll_spec (d.transitions.map TransitionDoc.triple)
      (⟨[(d.initialState, State.new)], d.initialState⟩ : LTS String CompositeOperation)
  have hedges : ∀ s, LTS.edgesFrom (d.transitions.map TransitionDoc.triple) s
      = (d.transitions.filter (fun t => decide (t.startState = s))).map
          (fun t => (t.label.operation, t.endState)) := by
    intro s
    unfold LTS.edgesFrom
    rw [List.filter_map, List.map_map]
    rfl
  have hment : ∀ s, LTS.mentions (d.transitions.map TransitionDoc.triple) s = true ↔
      ∃ t ∈ d.transitions, t.startState = s ∨ t.endState = s := by
    intro s
    simp [LTS.mentions, TransitionDoc.triple]
  refine ⟨lts1, hrun, ?_, ?_, ?_, ?_⟩
  · have h := (hwf (by simp [MapWF])).2
    simpa [LTS.NumOfTransitions, State.new] using h
  · intro s hs
    rw [hout s, hedges]
    by_cases hsi : s = d.initialState
    · subst hsi
      simp [LTS.outgoing, mapFind, State.new]
    · have hsi2 : ¬ d.initialState = s := fun h => hsi h.symm
      have hm : LTS.mentions (d.transitions.map TransitionDoc.triple) s = true := by
        rcases hs with h | h
        · exact absurd h hsi
        · exact (hment s).2 h
      simp [LTS.outgoing, mapFind, hsi2, hm]
  · intro s hs
    have hsi : ¬ d.initialState = s := fun h => hs (Or.inl h.symm)
    have hm : ¬ LTS.mentions (d.transitions.map TransitionDoc.triple) s = true :=
      fun h => hs (Or.inr ((hment s).1 h))
    have h := hout s
    simp only [LTS.outgoing, mapFind, if_neg hsi, Option.map_none', if_neg hm] at h
    unfold LTS.HasState mapContains
    cases hf : mapFind s lts1.states_ with
    | some x => rw [hf] at h; simp at h
    | none => rfl
  · intro t _
    exact ⟨rfl, rfl⟩

end RecipeTheorems

section EqualityLemmas

variable {K T : Type} [DecidableEq K] [DecidableEq T]

theorem mem_of_mapFind {V : Type} {k : K} {v : V} {m : List (K × V)}
    (h : mapFind k m = some v) : (k, v) ∈ m := by
  induction m with
  | nil => simp [mapFind] at h
  | cons e m ih =>
    rw [mapFind_cons] at h
    by_cases hek : e.1 = k
    · rw [if_pos hek] at h
      cases h
      rw [← hek]
      exact List.mem_cons_self _ _
    · rw [if_neg hek] at h
      exact List.mem_cons_of_mem _ (ih h)

theorem mapFind_of_mem {V : Type} {k : K} {v : V} {m : List (K × V)} (hwf : MapWF m)
    (h : (k, v) ∈ m) : mapFind k m = some v := by
  induction m with
  | nil => simp at h
  | cons e m ih =>
    unfold MapWF at hwf
    rw [List.map_cons, List.nodup_cons] at hwf
    rw [mapFind_cons]
    rcases List.mem_cons.1 h with h1 | h1
    · rw [← h1]; simp
    · have hne : ¬ e.1 = k := by
        intro hek
        exact hwf.1 (hek ▸ List.mem_map_of_mem Prod.fst h1)
      rw [if_neg hne]
      exact ih hwf.2 h1

theorem State_eq_iff (x y : State K T) :
    State.eq x y = true ↔ ∀ e, e ∈ x.transitions_ ↔ e ∈ y.transitions_ := by
  unfold State.eq
  simp only [Bool.and_eq_true, List.all_eq_true, decide_eq_true_eq]
  constructor
  · intro h e; exact ⟨h.1 e, h.2 e⟩
  · intro h; exact ⟨fun e => (h e).1, fun e => (h e).2⟩

theorem mem_keys_iff_find {V : Type} (k : K) (m : List (K × V)) :
    k ∈ m.map Prod.fst ↔ ∃ v, mapFind k m = some v := by
  have h := mapFind_eq_none_iff k m
  cases hf : mapFind k m with
  | none => rw [hf] at h; simp [h.1 rfl]
  | some v =>
    rw [hf] at h
    have : k ∈ m.map Prod.fst := by
      by_contra hcon
      have := h.2 hcon
      simp at this
    simp [this]

/-- The comparison of two duplicate-free maps: true exactly when both have the
same keys and the values under every key compare equal. -/
theorem mapEq_iff {V : Type} (veq : V → V → Bool) (a b : List (K × V))
    (ha : MapWF a) (hb : MapWF b) :
    mapEq veq a b = true ↔
      (∀ k, (mapFind k a).isSome = (mapFind k b).isSome) ∧
      (∀ k x y, mapFind k a = some x → mapFind k b = some y → veq x y = true) := by
  unfold mapEq
  simp only [Bool.and_eq_true, decide_eq_true_eq, List.all_eq_true]
  constructor
  · rintro ⟨hlen, hall⟩
    have hsub : a.map Prod.fst ⊆ b.map Prod.fst := by
      intro k hk
      obtain ⟨v, hv⟩ := (mem_keys_iff_find k a).1 hk
      have := hall (k, v) (mem_of_mapFind hv)
      simp only at this
      cases hfb : mapFind k b with
      | none => rw [hfb] at this; simp at this
      | some w => exact (mem_keys_iff_find k b).2 ⟨w, hfb⟩
    have hperm : (a.map Prod.fst).Perm (b.map Prod.fst) :=
      (List.subperm_of_subset ha hsub).perm_of_length_le (by simp [hlen])
    constructor
    · intro k
      have hk : k ∈ a.map Prod.fst ↔ k ∈ b.map Prod.fst := hperm.mem_iff
      rw [mem_keys_iff_find, mem_keys_iff_find] at hk
      cases hfa : mapFind k a with
      | none =>
        cases hfb : mapFind k b with
        | none => rfl
        | some w =>
          obtain ⟨v, hv⟩ := hk.2 ⟨w, hfb⟩
          rw [hfa] at hv; cases hv
      | some v =>
        obtain ⟨w, hw⟩ := hk.1 ⟨v, hfa⟩
        rw [hw]; rfl
    · intro k x y hx hy
      have := hall (k, x) (mem_of_mapFind hx)
      simp only [hy] at this
      exact this
  · rintro ⟨hkeys, hvals⟩
    have hmem : ∀ k, k ∈ a.map Prod.fst ↔ k ∈ b.map Prod.fst := by
      intro k
      rw [mem_keys_iff_find, mem_keys_iff_find, ← Option.isSome_iff_exists,
        ← Option.isSome_iff_exists, hkeys k]
    have hperm : (a.map Prod.fst).Perm (b.map Prod.fst) :=
      (List.perm_ext_iff_of_nodup ha hb).2 hmem
    refine ⟨by simpa using hperm.length_eq, ?_⟩
    intro e he
    have hfa : mapFind e.1 a = some e.2 := mapFind_of_mem ha he
    have hsome := hkeys e.1
    rw [hfa] at hsome
    cases hfb : mapFind e.1 b with
    | none => rw [hfb] at hsome; simp at hsome
    | some w => exact hvals e.1 e.2 w hfa hfb

end EqualityLemmas

section EqualityTheorems

variable {K T : Type} [DecidableEq K] [DecidableEq T]

theorem LTS_eq_iff (a b : LTS K T) (ha : MapWF a.states_) (hb : MapWF b.states_) :
    LTS.eq a b = true ↔
      a.initial_state_ = b.initial_state_ ∧
      (∀ k, a.HasState k = b.HasState k) ∧
      (∀ k x y, a.outgoing k = some x → b.outgoing k = some y → ∀ e, e ∈ x ↔ e ∈ y) := by
  unfold LTS.eq
  rw [Bool.and_eq_true, decide_eq_true_eq, mapEq_iff State.eq _ _ ha hb]
  constructor
  · rintro ⟨hi, hk, hv⟩
    refine ⟨hi, hk, ?_⟩
    intro k x y hx hy
    unfold LTS.outgoing at hx hy
    cases hfa : mapFind k a.states_ with
    | none => rw [hfa] at hx; simp at hx
    | some sa =>
      cases hfb : mapFind k b.states_ with
      | none => rw [hfb] at hy; simp at hy
      | some sb =>
        rw [hfa] at hx; rw [hfb] at hy
        simp only [Option.map_some', Option.some.injEq] at hx hy
        rw [← hx, ← hy]
        exact (State_eq_iff sa sb).1 (hv k sa sb hfa hfb)
  · rintro ⟨hi, hk, hv⟩
    refine ⟨hi, hk, ?_⟩
    intro k x y hx hy
    apply (State_eq_iff x y).2
    exact hv k x.transitions_ y.transitions_ (by simp [LTS.outgoing, hx])
      (by simp [LTS.outgoing, hy])

/-- Claim C14: two LTSs (each a map without repeated keys) compare equal
with `operator==` exactly when their initial states are equal, they have the
same state keys and under every key their outgoing transitions are equal as
sets of edges; in particular adding the same transitions to an LTS in two
different orders gives LTSs that compare equal. -/
theorem LTS_eq_iff_same_edge_sets (a b : LTS K T)
    (ha : MapWF a.states_) (hb : MapWF b.states_) :
    (LTS.eq a b = true ↔
      a.initial_state_ = b.initial_state_ ∧
      (∀ k, a.HasState k = b.HasState k) ∧
      (∀ k x y, a.outgoing k = some x → b.outgoing k = some y → ∀ e, e ∈ x ↔ e ∈ y)) ∧
    (∀ ts ts2 : List (K × T × K), ts.Perm ts2 →
      ∃ la lb, a.addAll ts = .ok la ∧ a.addAll ts2 = .ok lb ∧ LTS.eq la lb = true) := by
  refine ⟨LTS_eq_iff a b ha hb, ?_⟩
  intro ts ts2 hp
  obtain ⟨la, hra, hia, hwa, hoa⟩ := addAll_spec ts a
  obtain ⟨lb, hrb, hib, hwb, hob⟩ := addAll_spec ts2 a
  refine ⟨la, lb, hra, hrb, ?_⟩
  rw [LTS_eq_iff la lb (hwa ha).1 (hwb ha).1]
  have hout : ∀ k, (la.outgoing k).isSome = (lb.outgoing k).isSome := by
    intro k
    rw [hoa k, hob k, mentions_perm hp k]
    cases a.outgoing k with
    | some v => rfl
    | none => by_cases hm : LTS.mentions ts2 k = true <;> simp [hm]
  refine ⟨by rw [hia, hib], ?_, ?_⟩
  · intro k
    have := hout k
    simpa [LTS.HasState, mapContains, LTS.outgoing] using this
  · intro k x y hx hy e
    rw [hoa k] at hx
    rw [hob k] at hy
    have hpe := (edgesFrom_perm hp k).mem_iff (a := e)
    cases h0 : a.outgoing k with
    | some v =>
      rw [h0] at hx hy
      simp only [Option.some.injEq] at hx hy
      rw [← hx, ← hy, List.mem_append, List.mem_append, hpe]
    | none =>
      rw [h0] at hx hy
      rw [mentions_perm hp k] at hx
      by_cases hm : LTS.mentions ts2 k = true
      · simp only [hm, if_true, Option.some.injEq] at hx hy
        rw [← hx, ← hy, hpe]
      · simp [hm] at hx

/-- Witness for C14: the LTS with `s0 -a1-> s1`, `s0 -a2-> s2` equals the one
that lists the two transitions of `s0` in the other order. -/
theorem LTS_eq_iff_same_edge_sets_witness :
    LTS.eq (⟨[("s0", ⟨[("a1", "s1"), ("a2", "s2")]⟩), ("s1", ⟨[]⟩), ("s2", ⟨[]⟩)], "s0"⟩ :
        LTS String String)
      ⟨[("s2", ⟨[]⟩), ("s0", ⟨[("a2", "s2"), ("a1", "s1")]⟩), ("s1", ⟨[]⟩)], "s0"⟩ = true ∧
    (∃ la lb,
      LTS.addAll (⟨[], "s0"⟩ : LTS String String) [("s0", "a1", "s1"), ("s0", "a2", "s2")]
        = .ok la ∧
      LTS.addAll (⟨[], "s0"⟩ : LTS String String) [("s0", "a2", "s2"), ("s0", "a1", "s1")]
        = .ok lb ∧
      LTS.eq la lb = true) := by
  have h2 := LTS_eq_iff_same_edge_sets (⟨[], "s0"⟩ : LTS String String) ⟨[], "s0"⟩
    (by unfold MapWF; decide) (by unfold MapWF; decide)
  exact ⟨by decide, h2.2 _ _ (List.Perm.swap _ _ _)⟩

end EqualityTheorems

section ResourceParsing

/-- The LTS built from one initial state by a run of `AddTransition` calls:
its initial state is the given one, it has one transition per call, its
states are the initial state and the states the calls mention, and every
state has the transitions that start there, in call order. -/
theorem addAll_from_initial {K T : Type} [DecidableEq K] (initial : K)
    (ts : List (K × T × K)) :
    ∃ L, (⟨[(initial, State.new)], initial⟩ : LTS K T).addAll ts = .ok L ∧
      L.initial_state_ = initial ∧
      L.NumOfTransitions = ts.length ∧
      (∀ s, L.HasState s = true ↔ (s = initial ∨ LTS.mentions ts s = true)) ∧
      (∀ s, L.HasState s = true → L.outgoing s = some (LTS.edgesFrom ts s)) := by
  obtain ⟨L, hrun, hinit, hwf, hout⟩ :=
    addAll_spec ts (⟨[(initial, State.new)], initial⟩ : LTS K T)
  have hout2 : ∀ s, L.outgoing s =
      if s = initial ∨ LTS.mentions ts s = true then some (LTS.edgesFrom ts s) else none := by
    intro s
    rw [hout s]
    by_cases hsi : s = initial
    · subst hsi
      simp [LTS.outgoing, mapFind, State.new]
    · have hsi2 : ¬ initial = s := fun h => hsi h.symm
      simp [LTS.outgoing, mapFind, hsi, hsi2]
  have hhas : ∀ s, L.HasState s = (L.outgoing s).isSome := by
    intro s
    simp [LTS.HasState, mapContains, LTS.outgoing]
  refine ⟨L, hrun, hinit, ?_, ?_, ?_⟩
  · have h := (hwf (by simp [MapWF])).2
    simpa [LTS.NumOfTransitions, State.new] using h
  · intro s
    rw [hhas, hout2]
    by_cases h : s = initial ∨ LTS.mentions ts s = true
    · simp [h]
    · simp [h]
  · intro s hs
    rw [hhas, hout2] at hs
    rw [hout2]
    by_cases h : s = initial ∨ LTS.mentions ts s = true
    · rw [if_pos h]
    · rw [if_neg h] at hs; simp at hs

theorem collect_parseEdge (ts : List (String × String × String)) :
    collect lts.parseEdge (ts.map (fun t =>
      Json.object [("endState", .string t.2.2), ("label", .string t.2.1),
        ("startState", .string t.1)])) = .ok ts := by
  induction ts with
  | nil => rfl
  | cons t ts ih =>
    simp only [List.map_cons, collect, ih]
    simp [lts.parseEdge, Json.get, mapFind, Json.toStr, bind, Except.bind, pure, Except.pure]

theorem ParseJson_resourceJson (L : LTS String String) (initial : String)
    (ts : List (String × String × String)) :
    lts.ParseJson L (lts.resourceJson initial ts)
      = (L.set_initial_state initial true).addAll ts := by
  unfold lts.ParseJson lts.resourceJson
  simp only [Json.get, mapFind, Json.toStr, Json.items, bind, Except.bind, if_true]
  simp only [String.reduceEq, if_false, if_true, collect_parseEdge]

theorem ReadFromFile_of_lines (L : LTS String String) (content : String)
    (first : List Char) (rest : List (List Char)) (ts : List (String × String × String))
    (hlines : (lts.splitOn '\n' content.data).filter (fun l => !lts.ignored l) = first :: rest)
    (hts : collect lts.parseLine rest = .ok ts) :
    lts.ReadFromFile L content
      = (L.set_initial_state (String.mk (lts.trim first)) true).addAll ts := by
  unfold lts.ReadFromFile
  rw [hlines]
  simp only [hts]

theorem splitOn_append_sep (sep : Char) (x rest : List Char) (h : ∀ c ∈ x, c ≠ sep) :
    lts.splitOn sep (x ++ sep :: rest) = x :: lts.splitOn sep rest := by
  induction x with
  | nil => simp [lts.splitOn]
  | cons c cs ih =>
    have hc : c ≠ sep := h c (List.mem_cons_self _ _)
    have := ih (fun y hy => h y (List.mem_cons_of_mem _ hy))
    simp only [List.cons_append, lts.splitOn, if_neg hc, List.append_eq, this]

theorem splitOn_no_sep (sep : Char) (x : List Char) (h : ∀ c ∈ x, c ≠ sep) :
    lts.splitOn sep x = [x] := by
  induction x with
  | nil => simp [lts.splitOn]
  | cons c cs ih =>
    have hc : c ≠ sep := h c (List.mem_cons_self _ _)
    have := ih (fun y hy => h y (List.mem_cons_of_mem _ hy))
    simp only [lts.splitOn, if_neg hc, this]

theorem dropWhile_isspace_of_none (x : List Char) (h : ∀ c ∈ x, isspace c = false) :
    x.dropWhile isspace = x := by
  cases x with
  | nil => rfl
  | cons c cs => simp [List.dropWhile_cons, h c (List.mem_cons_self _ _)]

theorem trim_of_no_space (x : List Char) (h : ∀ c ∈ x, isspace c = false) :
    lts.trim x = x := by
  unfold lts.trim
  rw [dropWhile_isspace_of_none x h,
    dropWhile_isspace_of_none x.reverse (fun c hc => h c (List.mem_reverse.1 hc)),
    List.reverse_reverse]

theorem renderLine_chars (t : String × String × String)
    (h1 : lts.PlainName t.1) (h2 : lts.PlainName t.2.1) (h3 : lts.PlainName t.2.2) :
    lts.renderLine t ≠ [] ∧ (∀ c ∈ lts.renderLine t, c ≠ '\n' ∧ isspace c = false) ∧
    (∀ r, lts.renderLine t ≠ '#' :: r) := by
  unfold lts.renderLine
  refine ⟨by simp, ?_, ?_⟩
  · intro c hc
    simp only [List.mem_append, List.mem_cons] at hc
    rcases hc with h | h | h | h | h
    · exact ⟨(h1.2 c h).2.1, (h1.2 c h).2.2.2⟩
    · rw [h]; exact ⟨by decide, by decide⟩
    · exact ⟨(h2.2 c h).2.1, (h2.2 c h).2.2.2⟩
    · rw [h]; exact ⟨by decide, by decide⟩
    · exact ⟨(h3.2 c h).2.1, (h3.2 c h).2.2.2⟩
  · intro r hr
    cases hd : t.1.data with
    | nil => exact h1.1 hd
    | cons c cs =>
      rw [hd] at hr
      simp only [List.cons_append, List.cons.injEq] at hr
      exact (h1.2 c (by rw [hd]; exact List.mem_cons_self _ _)).2.2.1 hr.1

theorem parseLine_renderLine (t : String × String × String)
    (h1 : lts.PlainName t.1) (h2 : lts.PlainName t.2.1) (h3 : lts.PlainName t.2.2) :
    lts.parseLine (lts.renderLine t) = .ok t := by
  unfold lts.parseLine lts.renderLine
  rw [splitOn_append_sep ',' _ _ (fun c hc => (h1.2 c hc).1),
    splitOn_append_sep ',' _ _ (fun c hc => (h2.2 c hc).1),
    splitOn_no_sep ',' _ (fun c hc => (h3.2 c hc).1)]
  simp only [List.map_cons, List.map_nil,
    trim_of_no_space _ (fun c hc => (h1.2 c hc).2.2.2),
    trim_of_no_space _ (fun c hc => (h2.2 c hc).2.2.2),
    trim_of_no_space _ (fun c hc => (h3.2 c hc).2.2.2)]

theorem ignored_of_plain (line : List Char) (hne : line ≠ [])
    (hc : ∀ c ∈ line, isspace c = false) (hh : ∀ r, line ≠ '#' :: r) :
    lts.ignored line = false := by
  unfold lts.ignored
  rw [trim_of_no_space line hc]
  cases line with
  | nil => exact absurd rfl hne
  | cons c cs =>
    have : c ≠ '#' := fun h => hh cs (by rw [h])
    simp only [List.isEmpty_cons, Bool.false_or]

theorem lines_of_body (ts : List (String × String × String))
    (h : ∀ t ∈ ts, lts.PlainName t.1 ∧ lts.PlainName t.2.1 ∧ lts.PlainName t.2.2) :
    (lts.splitOn '\n' (ts.flatMap (fun t => lts.renderLine t ++ ['\n']))).filter
        (fun l => !lts.ignored l) = ts.map lts.renderLine := by
  induction ts with
  | nil => simp [lts.splitOn, lts.ignored, lts.trim]
  | cons t ts ih =>
    obtain ⟨h1, h2, h3⟩ := h t (List.mem_cons_self _ _)
    obtain ⟨hne, hch, hh⟩ := renderLine_chars t h1 h2 h3
    rw [List.flatMap_cons, List.append_assoc, List.singleton_append,
      splitOn_append_sep '\n' _ _ (fun c hc => (hch c hc).1), List.filter_cons,
      ignored_of_plain _ hne (fun c hc => (hch c hc).2) hh,
      ih (fun x hx => h x (List.mem_cons_of_mem _ hx))]
    simp

theorem collect_parseLine (ts : List (String × String × String))
    (h : ∀ t ∈ ts, lts.PlainName t.1 ∧ lts.PlainName t.2.1 ∧ lts.PlainName t.2.2) :
    collect lts.parseLine (ts.map lts.renderLine) = .ok ts := by
  induction ts with
  | nil => rfl
  | cons t ts ih =>
    obtain ⟨h1, h2, h3⟩ := h t (List.mem_cons_self _ _)
    simp only [List.map_cons, collect, parseLine_renderLine t h1 h2 h3,
      ih (fun x hx => h x (List.mem_cons_of_mem _ hx))]

theorem ReadFromFile_renderText (L : LTS String String) (initial : String)
    (ts : List (String × String × String)) (hi : lts.PlainName initial)
    (h : ∀ t ∈ ts, lts.PlainName t.1 ∧ lts.PlainName t.2.1 ∧ lts.PlainName t.2.2) :
    lts.ReadFromFile L (lts.renderText initial ts)
      = (L.set_initial_state initial true).addAll ts := by
  have hlines : (lts.splitOn '\n' (lts.renderText initial ts).data).filter
      (fun l => !lts.ignored l) = initial.data :: ts.map lts.renderLine := by
    unfold lts.renderText
    simp only
    rw [splitOn_append_sep '\n' _ _ (fun c hc => (hi.2 c hc).2.1), List.filter_cons,
      ignored_of_plain _ hi.1 (fun c hc => (hi.2 c hc).2.2.2)
        (fun r hr => by
          have := (hi.2 '#' (by rw [hr]; exact List.mem_cons_self _ _)).2.2.1
          exact this rfl),
      lines_of_body ts h]
    simp
  rw [ReadFromFile_of_lines L _ _ _ ts hlines (collect_parseLine ts h),
    trim_of_no_space _ (fun c hc => (hi.2 c hc).2.2.2)]
end ResourceParsing

section ResourceTheorems

/-- Claim C15: a resource file whose first non-blank line names the initial
state and whose later non-blank lines are `start,label,end` triples, and the
JSON form of the same resource, are read into the same LTS: its initial state
is the named one, its states are exactly the named initial state and the
states the triples mention, and every state has the listed transitions that
start there, in the listed order (one LTS transition per line).  This holds
for every file that splits into such lines, and in particular for the file
that lists plain names (no comma, line break, `#` or white space) line by
line.  For the input `s0 / s0,a1,s1 / s1,a2,s2` both readers return the LTS
with states `s0`, `s1`, `s2`, initial state `s0` and transitions
`(s0,a1,s1)`, `(s1,a2,s2)`. -/
theorem ReadFromFile_ParseJson_same_LTS :
    (∀ (content : String) (first : List Char) (rest : List (List Char))
        (ts : List (String × String × String)),
      (lts.splitOn '\n' content.data).filter (fun l => !lts.ignored l) = first :: rest →
      collect lts.parseLine rest = .ok ts →
      ∃ L, lts.ReadFromFile LTS.new content = .ok L ∧
        lts.ParseJson LTS.new (lts.resourceJson (String.mk (lts.trim first)) ts) = .ok L ∧
        L.initial_state_ = String.mk (lts.trim first) ∧
        L.NumOfTransitions = ts.length ∧
        (∀ s, L.HasState s = true ↔
          (s = String.mk (lts.trim first) ∨ LTS.mentions ts s = true)) ∧
        (∀ s, L.HasState s = true → L.outgoing s = some (LTS.edgesFrom ts s))) ∧
    (∀ (initial : String) (ts : List (String × String × String)),
      lts.PlainName initial →
      (∀ t ∈ ts, lts.PlainName t.1 ∧ lts.PlainName t.2.1 ∧ lts.PlainName t.2.2) →
      ∃ L, lts.ReadFromFile LTS.new (lts.renderText initial ts) = .ok L ∧
        lts.ParseJson LTS.new (lts.resourceJson initial ts) = .ok L ∧
        L.initial_state_ = initial ∧
        L.NumOfTransitions = ts.length ∧
        (∀ s, L.HasState s = true ↔ (s = initial ∨ LTS.mentions ts s = true)) ∧
        (∀ s, L.HasState s = true → L.outgoing s = some (LTS.edgesFrom ts s))) ∧
    lts.ReadFromFile LTS.new "s0\ns0,a1,s1\ns1,a2,s2\n"
      = .ok ⟨[("s0", ⟨[("a1", "s1")]⟩), ("s1", ⟨[("a2", "s2")]⟩), ("s2", ⟨[]⟩)], "s0"⟩ ∧
    lts.ParseJson LTS.new (lts.resourceJson "s0" [("s0", "a1", "s1"), ("s1", "a2", "s2")])
      = .ok ⟨[("s0", ⟨[("a1", "s1")]⟩), ("s1", ⟨[("a2", "s2")]⟩), ("s2", ⟨[]⟩)], "s0"⟩ := by
  refine ⟨?_, ?_, rfl, rfl⟩
  · intro content first rest ts hlines hts
    obtain ⟨L, hrun, hinit, hnum, hstates, hout⟩ :=
      addAll_from_initial (String.mk (lts.trim first)) ts
    refine ⟨L, ?_, ?_, hinit, hnum, hstates, hout⟩
    · rw [ReadFromFile_of_lines LTS.new content first rest ts hlines hts, set_initial_state_new]
      exact hrun
    · rw [ParseJson_resourceJson, set_initial_state_new]
      exact hrun
  · intro initial ts hi hts
    obtain ⟨L, hrun, hinit, hnum, hstates, hout⟩ := addAll_from_initial initial ts
    refine ⟨L, ?_, ?_, hinit, hnum, hstates, hout⟩
    · rw [ReadFromFile_renderText LTS.new initial ts hi hts, set_initial_state_new]
      exact hrun
    · rw [ParseJson_resourceJson, set_initial_state_new]
      exact hrun

/-- Witness for C15: the general statement applied to the file
`s0 / s0,a1,s1 / s1,a2,s2`. -/
theorem ReadFromFile_ParseJson_same_LTS_witness :
    ∃ L, lts.ReadFromFile LTS.new "s0\ns0,a1,s1\ns1,a2,s2\n" = .ok L ∧
      lts.ParseJson LTS.new (lts.resourceJson "s0" [("s0", "a1", "s1"), ("s1", "a2", "s2")])
        = .ok L ∧
      L.initial_state_ = "s0" ∧
      L.NumOfTransitions = 2 := by
  obtain ⟨L, h1, h2, h3, h4, _⟩ :=
    ReadFromFile_ParseJson_same_LTS.1 "s0\ns0,a1,s1\ns1,a2,s2\n" ['s', '0']
      [['s', '0', ',', 'a', '1', ',', 's', '1'], ['s', '1', ',', 'a', '2', ',', 's', '2']]
      [("s0", "a1", "s1"), ("s1", "a2", "s2")] rfl rfl
  exact ⟨L, h1, h2, h3, h4⟩

end ResourceTheorems

section TopologyPool

theorem mem_tuples {α : Type} (P : List α) (n : Nat) (s : List α) :
    s ∈ tuples P n ↔ s.length = n ∧ ∀ x ∈ s, x ∈ P := by
  induction n generalizing s with
  | zero =>
    simp only [tuples, List.mem_singleton]
    constructor
    · intro h; subst h; simp
    · intro h; exact List.length_eq_zero.1 h.1
  | succ n ih =>
    simp only [tuples, List.mem_flatMap, List.mem_map]
    constructor
    · rintro ⟨x, hx, t, ht, rfl⟩
      obtain ⟨hl, hm⟩ := (ih t).1 ht
      refine ⟨by simp [hl], ?_⟩
      intro y hy
      rcases List.mem_cons.1 hy with h | h
      · rw [h]; exact hx
      · exact hm y h
    · rintro ⟨hl, hm⟩
      cases s with
      | nil => simp at hl
      | cons x t =>
        refine ⟨x, hm x (List.mem_cons_self _ _), t, (ih t).2 ⟨by simpa using hl, ?_⟩, rfl⟩
        intro y hy
        exact hm y (List.mem_cons_of_mem _ hy)

theorem length_tuples {α : Type} (P : List α) (n : Nat) :
    (tuples P n).length = P.length ^ n := by
  induction n with
  | zero => simp [tuples]
  | succ n ih =>
    have h : ∀ Q : List α, (Q.flatMap (fun x => (tuples P n).map (fun t => x :: t))).length
        = Q.length * P.length ^ n := by
      intro Q
      induction Q with
      | nil => simp
      | cons q Q ihq =>
        rw [List.flatMap_cons, List.length_append, ihq, List.length_map, ih, List.length_cons]
        ring
    rw [tuples, h, pow_succ]
    ring

theorem mem_movesOf {i : Nat} {L : LTS String String} {s : List String}
    {e : (Nat × String) × List String} (h : e ∈ movesOf i L s) :
    ∃ si v a t, s.get? i = some si ∧ L.outgoing si = some v ∧ (a, t) ∈ v ∧
      e = ((i, a), s.set i t) := by
  unfold movesOf at h
  cases hs : s.get? i with
  | none => rw [hs] at h; simp at h
  | some si =>
    rw [hs] at h
    simp only [List.mem_map] at h
    obtain ⟨x, hx, rfl⟩ := h
    cases hv : L.outgoing si with
    | none => rw [hv] at hx; simp at hx
    | some v =>
      rw [hv] at hx
      exact ⟨si, v, x.1, x.2, rfl, hv, by simpa using hx, rfl⟩

theorem mem_movesFrom {Ls : List (LTS String String)} {s : List String}
    {e : (Nat × String) × List String} :
    ∀ {i : Nat}, e ∈ movesFrom i Ls s → ∃ j, ∃ L ∈ Ls, e ∈ movesOf j L s := by
  induction Ls with
  | nil => intro i h; simp [movesFrom] at h
  | cons L Ls ih =>
    intro i h
    rw [movesFrom, List.mem_append] at h
    rcases h with h | h
    · exact ⟨i, L, List.mem_cons_self _ _, h⟩
    · obtain ⟨j, L2, hL2, he⟩ := ih h
      exact ⟨j, L2, List.mem_cons_of_mem _ hL2, he⟩

theorem target_mem_stateNames {R : List (LTS String String)} {L : LTS String String}
    (hL : L ∈ R) {si : String} {v : List (String × String)} (hv : L.outgoing si = some v)
    {a t : String} (hat : (a, t) ∈ v) : t ∈ stateNames R := by
  unfold LTS.outgoing at hv
  cases hf : mapFind si L.states_ with
  | none => rw [hf] at hv; simp at hv
  | some st =>
    rw [hf] at hv
    simp only [Option.map_some', Option.some.injEq] at hv
    have hmem := mem_of_mapFind hf
    unfold stateNames
    rw [List.mem_flatMap]
    refine ⟨L, hL, ?_⟩
    apply List.mem_cons_of_mem
    rw [List.mem_append]
    right
    rw [List.mem_flatMap]
    refine ⟨(si, st), hmem, ?_⟩
    rw [List.mem_map]
    exact ⟨(a, t), by rw [hv]; exact hat, rfl⟩

/-- Every reachable tuple has one component per resource, each a state name
of the resources. -/
theorem Reachable_mem_tuples (R : List (LTS String String)) (s : List String)
    (h : Reachable R s) : s ∈ tuples (stateNames R) R.length := by
  rw [mem_tuples]
  induction h with
  | initial =>
    refine ⟨by simp, ?_⟩
    intro x hx
    rw [List.mem_map] at hx
    obtain ⟨L, hL, rfl⟩ := hx
    unfold stateNames
    rw [List.mem_flatMap]
    exact ⟨L, hL, List.mem_cons_self _ _⟩
  | @move s e _ he ih =>
    obtain ⟨j, L, hL, hm⟩ := mem_movesFrom he
    obtain ⟨si, v, a, t, _, hv, hat, rfl⟩ := mem_movesOf hm
    refine ⟨by simpa using ih.1, ?_⟩
    intro x hx
    rcases List.mem_or_eq_of_mem_set hx with h | h
    · exact ih.2 x h
    · rw [h]; exact target_mem_stateNames hL hv hat

end TopologyPool

section TopologyStep

theorem HasState_eq_isSome {K T : Type} [DecidableEq K] (L : LTS K T) (s : K) :
    L.HasState s = (L.outgoing s).isSome := by
  simp [LTS.HasState, mapContains, LTS.outgoing]

theorem edgesFrom_same_start {K T : Type} [DecidableEq K] (s x : K) (moves : List (T × K)) :
    LTS.edgesFrom (moves.map (fun e => (s, e.1, e.2))) x = if x = s then moves else [] := by
  unfold LTS.edgesFrom
  by_cases h : x = s
  · subst h
    rw [if_pos rfl, List.filter_map, List.map_map]
    have : List.filter ((fun t : K × T × K => decide (t.1 = x)) ∘ fun e : T × K => (x, e.1, e.2))
        moves = moves := by
      apply List.filter_eq_self.2
      intro a _; simp
    rw [this]
    simp
  · have h2 : ¬ s = x := fun h3 => h h3.symm
    rw [if_neg h, List.filter_map, List.map_map]
    have : List.filter ((fun t : K × T × K => decide (t.1 = x)) ∘ fun e : T × K => (s, e.1, e.2))
        moves = [] := by
      apply List.filter_eq_nil_iff.2
      intro a _; simp [h2]
    rw [this]
    rfl

theorem mentions_same_start {K T : Type} [DecidableEq K] (s x : K) (moves : List (T × K)) :
    LTS.mentions (moves.map (fun e => (s, e.1, e.2))) x = true ↔
      (moves ≠ [] ∧ s = x) ∨ ∃ e ∈ moves, e.2 = x := by
  unfold LTS.mentions
  simp only [List.any_eq_true, List.mem_map, Bool.or_eq_true, decide_eq_true_eq]
  constructor
  · rintro ⟨t, ⟨e, he, rfl⟩, h | h⟩
    · left
      exact ⟨List.ne_nil_of_mem he, h⟩
    · right
      exact ⟨e, he, h⟩
  · rintro (⟨hne, h⟩ | ⟨e, he, h⟩)
    · obtain ⟨e, he⟩ := List.exists_mem_of_ne_nil _ hne
      exact ⟨(s, e.1, e.2), ⟨e, he, rfl⟩, Or.inl h⟩
    · exact ⟨(s, e.1, e.2), ⟨e, he, rfl⟩, Or.inr h⟩

/-- One iteration of the exploration loop keeps the invariant: the head of the
queue becomes an expanded tuple and the new targets join the queue. -/
theorem explore_step (R : List (LTS String String))
    (T0 : LTS (List String) (Nat × String)) (s : List String)
    (q done : List (List String)) (h : ExploreInv R T0 (s :: q) done) :
    ∃ T1, T0.addAll ((successors R s).map (fun e => (s, e.1, e.2))) = .ok T1 ∧
      ExploreInv R T1
        (q ++ (((successors R s).map Prod.snd).filter (fun t => !T0.HasState t)).dedup)
        (done ++ [s]) := by
  obtain ⟨hwf, hinit, hnd, hstates, hqueue, hdone, hreach, hinitS⟩ := h
  obtain ⟨T1, hrun, hinit1, hwf1, hout⟩ :=
    addAll_spec ((successors R s).map (fun e => (s, e.1, e.2))) T0
  refine ⟨T1, hrun, ?_⟩
  have hs0 : T0.outgoing s = some [] := hqueue s (List.mem_cons_self _ _)
  have hsT : T0.HasState s = true := by rw [HasState_eq_isSome, hs0]; rfl
  -- the transitions of every key after the iteration
  have hout1 : ∀ x, T1.outgoing x =
      match T0.outgoing x with
      | some v => some (v ++ if x = s then successors R s else [])
      | none => if (∃ e ∈ successors R s, e.2 = x) then some [] else none := by
    intro x
    rw [hout x, edgesFrom_same_start]
    cases hx : T0.outgoing x with
    | some v => rfl
    | none =>
      have hxs : ¬ x = s := by
        intro hxs; rw [hxs, hs0] at hx; cases hx
      have hsx : ¬ s = x := fun h => hxs h.symm
      simp only [if_neg hxs]
      by_cases hm : ∃ e ∈ successors R s, e.2 = x
      · have := (mentions_same_start s x (successors R s)).2 (Or.inr hm)
        rw [if_pos this, if_pos hm]
      · have : ¬ LTS.mentions ((successors R s).map (fun e => (s, e.1, e.2))) x = true := by
          intro hcon
          rcases (mentions_same_start s x (successors R s)).1 hcon with h1 | h1
          · exact hsx h1.2
          · exact hm h1
        rw [if_neg this, if_neg hm]
  have hfresh : ∀ x, x ∈ (((successors R s).map Prod.snd).filter
      (fun t => !T0.HasState t)).dedup ↔
      (∃ e ∈ successors R s, e.2 = x) ∧ T0.HasState x = false := by
    intro x
    rw [List.mem_dedup, List.mem_filter, List.mem_map]
    simp
  have hhas1 : ∀ x, T1.HasState x = true ↔
      T0.HasState x = true ∨ ∃ e ∈ successors R s, e.2 = x := by
    intro x
    rw [HasState_eq_isSome, HasState_eq_isSome, hout1 x]
    cases hx : T0.outgoing x with
    | some v => simp
    | none =>
      by_cases hm : ∃ e ∈ successors R s, e.2 = x
      · simp [hm]
      · simp [hm]
  have hmono : ∀ x, T0.HasState x = true → T1.HasState x = true :=
    fun x hx => (hhas1 x).2 (Or.inl hx)
  have hs_not_done : s ∉ done := by
    intro hcon
    have := List.disjoint_of_nodup_append hnd hcon
    exact this (List.mem_cons_self _ _)
  have hs_not_q : s ∉ q := by
    have := (List.nodup_append.1 hnd).2.1
    exact (List.nodup_cons.1 this).1
  refine ⟨(hwf1 hwf).1, by rw [hinit1, hinit], ?_, ?_, ?_, ?_, ?_, hmono _ hinitS⟩
  · -- no tuple is listed twice
    have hperm : (done ++ [s] ++ (q ++ (((successors R s).map Prod.snd).filter
        (fun t => !T0.HasState t)).dedup)).Perm
        ((done ++ s :: q) ++ (((successors R s).map Prod.snd).filter
        (fun t => !T0.HasState t)).dedup) := by
      simp only [List.append_assoc, List.singleton_append, List.cons_append]
      exact List.Perm.refl _
    rw [hperm.nodup_iff, List.nodup_append]
    refine ⟨hnd, List.nodup_dedup _, ?_⟩
    intro x hx hx2
    have h1 : T0.HasState x = true := (hstates x).2 (List.mem_append.1 hx)
    have h2 := ((hfresh x).1 hx2).2
    rw [h1] at h2; cases h2
  · -- the states are the expanded and the queued tuples
    intro x
    rw [hhas1 x]
    constructor
    · rintro (hx | hx)
      · rcases (hstates x).1 hx with hd | hq
        · exact Or.inl (List.mem_append_left _ hd)
        · rcases List.mem_cons.1 hq with h1 | h1
          · left; rw [h1]; exact List.mem_append_right _ (List.mem_singleton_self _)
          · exact Or.inr (List.mem_append_left _ h1)
      · by_cases hx0 : T0.HasState x = true
        · rcases (hstates x).1 hx0 with hd | hq
          · exact Or.inl (List.mem_append_left _ hd)
          · rcases List.mem_cons.1 hq with h1 | h1
            · left; rw [h1]; exact List.mem_append_right _ (List.mem_singleton_self _)
            · exact Or.inr (List.mem_append_left _ h1)
        · right
          exact List.mem_append_right _ ((hfresh x).2 ⟨hx, by simpa using hx0⟩)
    · rintro (hx | hx)
      · rcases List.mem_append.1 hx with hd | h1
        · exact Or.inl ((hstates x).2 (Or.inl hd))
        · rw [List.mem_singleton.1 h1]; exact Or.inl hsT
      · rcases List.mem_append.1 hx with hq | hf
        · exact Or.inl ((hstates x).2 (Or.inr (List.mem_cons_of_mem _ hq)))
        · exact Or.inr ((hfresh x).1 hf).1
  · -- a queued tuple has no transition yet
    intro x hx
    rw [hout1 x]
    rcases List.mem_append.1 hx with hq | hf
    · have hxs : ¬ x = s := fun h => hs_not_q (h ▸ hq)
      rw [hqueue x (List.mem_cons_of_mem _ hq)]
      simp [hxs]
    · obtain ⟨hm, hno⟩ := (hfresh x).1 hf
      have hnone : T0.outgoing x = none := by
        rw [HasState_eq_isSome] at hno
        cases hx0 : T0.outgoing x with
        | none => rfl
        | some v => rw [hx0] at hno; cases hno
      rw [hnone]
      simp only [if_pos hm]
  · -- an expanded tuple has exactly its moves
    intro x hx
    rcases List.mem_append.1 hx with hd | h1
    · have hxs : ¬ x = s := fun h => hs_not_done (h ▸ hd)
      obtain ⟨ho, hsucc⟩ := hdone x hd
      refine ⟨?_, fun e he => hmono _ (hsucc e he)⟩
      rw [hout1 x, ho]
      simp [hxs]
    · have hxs : x = s := List.mem_singleton.1 h1
      subst hxs
      refine ⟨?_, fun e he => (hhas1 e.2).2 (Or.inr ⟨e, he, rfl⟩)⟩
      rw [hout1 x, hs0]
      simp
  · -- every state is reachable
    intro x hx
    rcases (hhas1 x).1 hx with h0 | ⟨e, he, rfl⟩
    · exact hreach x h0
    · exact Reachable.move (hreach s hsT) he

end TopologyStep

section TopologyTheorems

theorem tag_movesOf {j : Nat} {L : LTS String String} {s : List String}
    {e : (Nat × String) × List String} (h : e ∈ movesOf j L s) : e.1.1 = j := by
  obtain ⟨_, _, _, _, _, _, _, rfl⟩ := mem_movesOf h
  rfl

theorem tag_movesFrom {Ls : List (LTS String String)} {s : List String}
    {e : (Nat × String) × List String} :
    ∀ {j : Nat}, e ∈ movesFrom j Ls s → j ≤ e.1.1 ∧ e.1.1 < j + Ls.length := by
  induction Ls with
  | nil => intro j h; simp [movesFrom] at h
  | cons L Ls ih =>
    intro j h
    rw [movesFrom, List.mem_append] at h
    rcases h with h | h
    · have := tag_movesOf h
      simp only [List.length_cons]; omega
    · have := ih h
      simp only [List.length_cons]; omega

theorem filter_movesOf (i j : Nat) (L : LTS String String) (s : List String) :
    (movesOf j L s).filter (fun e => decide (e.1.1 = i))
      = if j = i then movesOf j L s else [] := by
  by_cases h : j = i
  · rw [if_pos h]
    apply List.filter_eq_self.2
    intro e he
    simp [tag_movesOf he, h]
  · rw [if_neg h]
    apply List.filter_eq_nil_iff.2
    intro e he
    simp [tag_movesOf he, h]

theorem filter_movesFrom (i : Nat) (s : List String) (Ls : List (LTS String String)) :
    ∀ j, (movesFrom j Ls s).filter (fun e => decide (e.1.1 = i))
      = if j ≤ i then
          (match Ls.get? (i - j) with
            | some L => movesOf i L s
            | none => [])
        else [] := by
  induction Ls with
  | nil => intro j; simp [movesFrom]
  | cons L Ls ih =>
    intro j
    rw [movesFrom, List.filter_append, filter_movesOf, ih (j + 1)]
    rcases Nat.lt_trichotomy j i with hlt | heq | hgt
    · have h1 : ¬ j = i := by omega
      have h2 : j + 1 ≤ i := by omega
      have h3 : j ≤ i := by omega
      have h4 : i - j = (i - (j + 1)) + 1 := by omega
      rw [if_neg h1, if_pos h2, if_pos h3, h4, List.get?_cons_succ]
      rfl
    · subst heq
      have h2 : ¬ j + 1 ≤ j := by omega
      rw [if_pos rfl, if_neg h2, if_pos (Nat.le_refl j), Nat.sub_self]
      simp
    · have h1 : ¬ j = i := by omega
      have h2 : ¬ j + 1 ≤ i := by omega
      have h3 : ¬ j ≤ i := by omega
      rw [if_neg h1, if_neg h2, if_neg h3]
      rfl

theorem ExploreInv_initial (R : List (LTS String String)) :
    ExploreInv R
      ((LTS.new : LTS (List String) (Nat × String)).set_initial_state
        (R.map (fun L => L.initial_state_)) true)
      [R.map (fun L => L.initial_state_)] [] := by
  rw [set_initial_state_new]
  refine ⟨by simp [MapWF], rfl, by simp, ?_, ?_, ?_, ?_,
    by simp [LTS.HasState, mapContains, mapFind]⟩
  · intro s
    by_cases h : R.map (fun L => L.initial_state_) = s
    · simp [LTS.HasState, mapContains, mapFind, h]
    · have h2 : ¬ s = R.map (fun L => L.initial_state_) := fun h3 => h h3.symm
      simp [LTS.HasState, mapContains, mapFind, h, h2]
  · intro s hs
    rw [List.mem_singleton.1 hs]
    simp [LTS.outgoing, mapFind, State.new]
  · intro s hs; simp at hs
  · intro s hs
    by_cases h : R.map (fun L => L.initial_state_) = s
    · rw [← h]; exact Reachable.initial
    · simp [LTS.HasState, mapContains, mapFind, h] at hs

/-- The exploration loop returns when it is given one iteration per tuple that
is not expanded yet, and the invariant holds for what it returns, with an
empty queue. -/
theorem explore_returns (R : List (LTS String String)) :
    ∀ (fuel : Nat) (T0 : LTS (List String) (Nat × String)) (queue done : List (List String)),
      ExploreInv R T0 queue done →
      (stateNames R).length ^ R.length + 1 ≤ fuel + done.length →
      ∃ T1 done1, explore R fuel T0 queue = some T1 ∧ ExploreInv R T1 [] done1 := by
  intro fuel
  induction fuel with
  | zero =>
    intro T0 queue done hinv hfuel
    cases queue with
    | nil => exact ⟨T0, done, by simp [explore], hinv⟩
    | cons s q =>
      exfalso
      obtain ⟨_, _, hnd, hstates, _, _, hreach, _⟩ := hinv
      have hnd2 : (done ++ [s]).Nodup := by
        apply List.Nodup.sublist _ hnd
        exact List.Sublist.append (List.Sublist.refl _)
          (List.cons_sublist_cons.2 (List.nil_sublist _))
      have hsub : done ++ [s] ⊆ tuples (stateNames R) R.length := by
        intro x hx
        apply Reachable_mem_tuples
        apply hreach
        rw [hstates]
        rcases List.mem_append.1 hx with h | h
        · exact Or.inl h
        · right; rw [List.mem_singleton.1 h]; exact List.mem_cons_self _ _
      have hlen := (List.subperm_of_subset hnd2 hsub).length_le
      rw [length_tuples, List.length_append, List.length_singleton] at hlen
      omega
  | succ fuel ih =>
    intro T0 queue done hinv hfuel
    cases queue with
    | nil => exact ⟨T0, done, by simp [explore], hinv⟩
    | cons s q =>
      obtain ⟨T1, hrun, hinv1⟩ := explore_step R T0 s q done hinv
      have hfuel1 : (stateNames R).length ^ R.length + 1 ≤ fuel + (done ++ [s]).length := by
        rw [List.length_append, List.length_singleton]; omega
      obtain ⟨T2, done2, hrun2, hinv2⟩ := ih T1 _ _ hinv1 hfuel1
      refine ⟨T2, done2, ?_, hinv2⟩
      simp only [explore, hrun]
      exact hrun2

/-- Claim C16: for every list of resource LTSs, `Combine` returns a topology
whose initial state is the tuple of the resources' initial states, whose
states are the reachable tuples, and in which every reachable tuple `s` has,
for every resource index `i`, as outgoing edges tagged `i` exactly the edges
`(i, a)` to `s` with component `i` replaced by the target, one for each
transition of resource `i` out of `s[i]`, in the resource's order; every edge
is tagged with a resource index, so no other edges exist. -/
theorem Combine_is_parallel_composition (R : List (LTS String String)) :
    ∃ T, Combine R = some T ∧
      T.initial_state_ = R.map (fun L => L.initial_state_) ∧
      (∀ s, T.HasState s = true ↔ Reachable R s) ∧
      (∀ s, Reachable R s → ∃ v, T.outgoing s = some v ∧
        (∀ e ∈ v, e.1.1 < R.length) ∧
        (∀ i L si, R.get? i = some L → s.get? i = some si →
          v.filter (fun e => decide (e.1.1 = i))
            = ((L.outgoing si).getD []).map (fun e => ((i, e.1), s.set i e.2)))) := by
  obtain ⟨T, done, hrun, hinv⟩ :=
    explore_returns R ((stateNames R).length ^ R.length + 1) _ _ []
      (ExploreInv_initial R) (by simp)
  obtain ⟨_, hinit, _, hstates, _, hdone, hreach, hinitS⟩ := hinv
  have hmem : ∀ s, T.HasState s = true → s ∈ done := by
    intro s hs
    rcases (hstates s).1 hs with h | h
    · exact h
    · simp at h
  have hall : ∀ s, Reachable R s → s ∈ done := by
    intro s hs
    induction hs with
    | initial => exact hmem _ hinitS
    | @move s e _ he ih => exact hmem _ ((hdone s ih).2 e he)
  refine ⟨T, hrun, hinit, ?_, ?_⟩
  · intro s
    exact ⟨hreach s, fun hs => (hstates s).2 (Or.inl (hall s hs))⟩
  · intro s hs
    refine ⟨successors R s, (hdone s (hall s hs)).1, ?_, ?_⟩
    · intro e he
      have := (tag_movesFrom he).2
      omega
    · intro i L si hL hsi
      unfold successors
      rw [filter_movesFrom i s R 0, if_pos (Nat.zero_le i), Nat.sub_zero, hL]
      simp only [movesOf, hsi]

end TopologyTheorems

section ContainerTheorems

variable {K T : Type} [DecidableEq K]

/-- Evaluation for claim C1: in the LTS with `a -x-> k`, `a -y-> k` the state
`a` has two consecutive transitions to `k`; `EraseDeep("k")` returns true but
erases only the first of them, so `a -y-> k` still targets the erased key. -/
theorem EraseDeep_consecutive_targets_skipped :
    LTS.EraseDeep (⟨[("a", ⟨[("x", "k"), ("y", "k")]⟩), ("k", ⟨[]⟩)], "a"⟩ :
      LTS String String) "k"
      = some (true, ⟨[("a", ⟨[("y", "k")]⟩)], "a"⟩) := by
  simp [LTS.EraseDeep, LTS.HasState, mapContains, mapFind, mapErase, LTS.eraseTargets,
    LTS.eraseLoop]

theorem AddTransitionRun_create (lts : LTS K T) (a : K) (l : T) (b : K) :
    lts.AddTransitionRun a l b true =
      (⟨mapModify a (fun s => s.AddTransition l b)
        (mapEmplace b State.new (mapEmplace a State.new lts.states_)), lts.initial_state_⟩,
       none) := by
  have h := AddTransition_create lts a l b
  unfold LTS.AddTransition at h
  cases hr : lts.AddTransitionRun a l b true with
  | mk after e =>
    rw [hr] at h
    cases e with
    | none => simp only [Except.ok.injEq] at h; rw [h]
    | some e => simp at h

theorem AddTransitionRun_strict (lts : LTS K T) (a : K) (l : T) (b : K) :
    lts.AddTransitionRun a l b false =
      match mapFind a lts.states_ with
      | none => (lts, some .out_of_range)
      | some _ =>
        (⟨mapModify a (fun s => s.AddTransition l b) lts.states_, lts.initial_state_⟩, none) := by
  unfold LTS.AddTransitionRun
  simp only [Bool.and_false, Bool.false_eq_true, if_false]

/-- Claim C2: with `create_missing_states = true`, `AddTransition` returns for
every LTS, label and keys; afterwards `src` and `dst` are states, the list of
`src` is its old list followed by `(label, dst)` (whether or not that edge was
there already), `NumOfTransitions` has grown by exactly 1, the list of every
other state is as before, and so is the initial state. -/
theorem AddTransition_create_appends (lts : LTS K T) (hwf : MapWF lts.states_)
    (src : K) (label : T) (dst : K) :
    ∃ after, lts.AddTransition src label dst true = .ok after ∧
      after.HasState src = true ∧ after.HasState dst = true ∧
      after.outgoing src = some ((lts.outgoing src).getD [] ++ [(label, dst)]) ∧
      after.NumOfTransitions = lts.NumOfTransitions + 1 ∧
      (∀ s, s ≠ src → lts.HasState s = true → after.outgoing s = lts.outgoing s) ∧
      (∀ s, s ≠ src → s ≠ dst → after.outgoing s = lts.outgoing s) ∧
      after.initial_state_ = lts.initial_state_ := by
  refine ⟨_, AddTransition_create lts src label dst, ?_, ?_, ?_,
    (AddTransition_wf_count lts src label dst hwf).2, ?_, ?_, rfl⟩
  · rw [HasState_eq_isSome, outgoing_AddTransition, if_pos rfl]; rfl
  · rw [HasState_eq_isSome, outgoing_AddTransition]
    by_cases h : dst = src
    · rw [if_pos h]; rfl
    · rw [if_neg h, if_pos rfl]; rfl
  · rw [outgoing_AddTransition, if_pos rfl]
  · intro s hs hhas
    rw [outgoing_AddTransition, if_neg hs]
    by_cases h : s = dst
    · rw [if_pos h]
      rw [HasState_eq_isSome] at hhas
      subst h
      cases ho : lts.outgoing s with
      | none => rw [ho] at hhas; cases hhas
      | some v => rfl
    · rw [if_neg h]
  · intro s hs hd
    rw [outgoing_AddTransition, if_neg hs, if_neg hd]

/-- Witness for C2: adding `a -x-> b` to an LTS that has this edge already
gives `a` the edge twice. -/
theorem AddTransition_create_appends_witness :
    ∃ after, LTS.AddTransition
        (⟨[("a", ⟨[("x", "b")]⟩), ("b", ⟨[]⟩)], "a"⟩ : LTS String String) "a" "x" "b" true
        = .ok after ∧
      after.outgoing "a" = some [("x", "b"), ("x", "b")] ∧
      after.NumOfTransitions = 2 := by
  obtain ⟨after, h1, _, _, h4, h5, _⟩ := AddTransition_create_appends
    (⟨[("a", ⟨[("x", "b")]⟩), ("b", ⟨[]⟩)], "a"⟩ : LTS String String)
    (by unfold MapWF; decide) "a" "x" "b"
  exact ⟨after, h1, h4, h5⟩

/-- Claim C3: when `src` is not a state, `AddTransition` with
`create_missing_states = false` throws the `std::out_of_range` of the failed
lookup of `src` and the LTS object (state map and initial state) is exactly
as before the call. -/
theorem AddTransition_strict_unknown_start (lts : LTS K T) (src : K) (label : T) (dst : K)
    (h : lts.HasState src = false) :
    lts.AddTransition src label dst false = .error .out_of_range ∧
    lts.AddTransitionRun src label dst false = (lts, some .out_of_range) := by
  have hnone : mapFind src lts.states_ = none := by
    rw [HasState_eq_isSome] at h
    unfold LTS.outgoing at h
    cases hf : mapFind src lts.states_ with
    | none => rfl
    | some v => rw [hf] at h; cases h
  have hrun : lts.AddTransitionRun src label dst false = (lts, some .out_of_range) := by
    rw [AddTransitionRun_strict, hnone]
  exact ⟨by unfold LTS.AddTransition; rw [hrun], hrun⟩

/-- Witness for C3: `AddTransition("b", "x", "a", false)` on the LTS with the
single state `a`. -/
theorem AddTransition_strict_unknown_start_witness :
    LTS.AddTransition (⟨[("a", ⟨[]⟩)], "a"⟩ : LTS String String) "b" "x" "a" false
      = .error .out_of_range ∧
    LTS.AddTransitionRun (⟨[("a", ⟨[]⟩)], "a"⟩ : LTS String String) "b" "x" "a" false
      = (⟨[("a", ⟨[]⟩)], "a"⟩, some .out_of_range) :=
  AddTransition_strict_unknown_start (⟨[("a", ⟨[]⟩)], "a"⟩ : LTS String String) "b" "x" "a"
    (by decide)

/-- Counterexample to C4: on the LTS with the single state `a`,
`AddTransition("a", "x", "b", false)` does not throw; it returns the LTS in
which `a` has an edge to `b`, and `b` is not a state. -/
theorem strict_AddTransition_leaves_dangling_edge :
    LTS.AddTransition (⟨[("a", ⟨[]⟩)], "a"⟩ : LTS String String) "a" "x" "b" false
      = .ok ⟨[("a", ⟨[("x", "b")]⟩)], "a"⟩ ∧
    LTS.HasState (⟨[("a", ⟨[("x", "b")]⟩)], "a"⟩ : LTS String String) "b" = false := by
  constructor
  · rfl
  · decide

/-- Claim C4, amended: when `src` is a state and `dst` is not, `AddTransition`
with `create_missing_states = false` does not throw: it appends `(label, dst)`
to the list of `src`, changes no other state, and `dst` is still not a state
(the new edge dangles). -/
theorem AddTransition_strict_unknown_end (lts : LTS K T) (src : K) (label : T) (dst : K)
    (hsrc : lts.HasState src = true) (hdst : lts.HasState dst = false) :
    ∃ after, lts.AddTransition src label dst false = .ok after ∧
      after.HasState dst = false ∧
      after.outgoing src = some ((lts.outgoing src).getD [] ++ [(label, dst)]) ∧
      (∀ s, s ≠ src → mapFind s after.states_ = mapFind s lts.states_) ∧
      after.initial_state_ = lts.initial_state_ := by
  obtain ⟨st, hst⟩ := (HasState_iff_find lts src).1 hsrc
  have hrun := AddTransitionRun_strict lts src label dst
  rw [hst] at hrun
  have hne : dst ≠ src := by
    intro h; rw [h, hsrc] at hdst; cases hdst
  refine ⟨⟨mapModify src (fun s => s.AddTransition label dst) lts.states_, lts.initial_state_⟩,
    by unfold LTS.AddTransition; rw [hrun], ?_, ?_, ?_, rfl⟩
  · rw [HasState_eq_isSome] at hdst ⊢
    unfold LTS.outgoing at hdst ⊢
    simp only [mapFind_modify, if_neg hne]
    exact hdst
  · unfold LTS.outgoing
    simp [mapFind_modify, hst, State.AddTransition]
  · intro s hs
    simp only [mapFind_modify, if_neg hs]

/-- Witness for C4 (amended): the call of the counterexample. -/
theorem AddTransition_strict_unknown_end_witness :
    ∃ after, LTS.AddTransition (⟨[("a", ⟨[]⟩)], "a"⟩ : LTS String String) "a" "x" "b" false
        = .ok after ∧
      after.HasState "b" = false ∧
      after.outgoing "a" = some [("x", "b")] := by
  obtain ⟨after, h1, h2, h3, _⟩ := AddTransition_strict_unknown_end
    (⟨[("a", ⟨[]⟩)], "a"⟩ : LTS String String) "a" "x" "b" (by decide) (by decide)
  exact ⟨after, h1, h2, h3⟩

/-- Claim C10: `AddState(key)` returns true exactly when `key` was not a
state; when it was, the LTS is unchanged; when it was not, `key` becomes a
state without transitions, every other entry of the state map and the
initial state are unchanged; and a second `AddState(key)` changes nothing. -/
theorem AddState_returns_whether_inserted (lts : LTS K T) (key : K) :
    ((lts.AddState key).1 = true ↔ lts.HasState key = false) ∧
    (lts.HasState key = true → (lts.AddState key).2 = lts) ∧
    (lts.HasState key = false →
      (lts.AddState key).2.outgoing key = some [] ∧
      (∀ s, s ≠ key → mapFind s (lts.AddState key).2.states_ = mapFind s lts.states_) ∧
      (lts.AddState key).2.initial_state_ = lts.initial_state_) ∧
    ((lts.AddState key).2.AddState key).2 = (lts.AddState key).2 := by
  have hsnd : (lts.AddState key).2 = ⟨mapEmplace key State.new lts.states_, lts.initial_state_⟩ :=
    AddStateWith_snd lts key State.new
  have hhas : (lts.AddState key).2.HasState key = true := by
    rw [hsnd, HasState_eq_isSome]
    unfold LTS.outgoing
    simp only [mapFind_emplace]
    cases mapFind key lts.states_ <;> simp
  have hsame : ∀ x : LTS K T, x.HasState key = true → (x.AddState key).2 = x := by
    intro x h
    unfold LTS.AddState LTS.AddStateWith
    simp [h]
  refine ⟨?_, hsame lts, ?_, hsame _ hhas⟩
  · unfold LTS.AddState
    rw [AddStateWith_fst]
    cases lts.HasState key <;> simp
  · intro h
    have hnone : mapFind key lts.states_ = none := by
      rw [HasState_eq_isSome] at h
      unfold LTS.outgoing at h
      cases hf : mapFind key lts.states_ with
      | none => rfl
      | some v => rw [hf] at h; cases h
    rw [hsnd]
    refine ⟨?_, ?_, rfl⟩
    · unfold LTS.outgoing
      simp [mapFind_emplace, hnone, State.new]
    · intro s hs
      have hs2 : ¬ key = s := fun h2 => hs h2.symm
      simp only [mapFind_emplace, if_neg hs2]
      cases mapFind s lts.states_ <;> rfl

end ContainerTheorems

section InitialStateTheorems

variable {K T : Type} [DecidableEq K]

theorem eraseTargets_isSome (key : K) (m : List (K × State K T)) :
    ∀ m2, LTS.eraseTargets key m = some m2 →
      ∀ j, (mapFind j m2).isSome = (mapFind j m).isSome := by
  induction m with
  | nil =>
    intro m2 h j
    simp only [LTS.eraseTargets, Option.some.injEq] at h
    rw [← h]
  | cons e m ih =>
    intro m2 h j
    unfold LTS.eraseTargets at h
    cases h1 : LTS.eraseLoop key e.2.transitions_ 0 with
    | none => rw [h1] at h; simp at h
    | some t =>
      cases h2 : LTS.eraseTargets key m with
      | none => rw [h1, h2] at h; simp at h
      | some r =>
        rw [h1, h2] at h
        simp only [Option.some.injEq] at h
        rw [← h, mapFind_cons, mapFind_cons]
        by_cases hej : e.1 = j
        · simp [hej]
        · simp only [if_neg hej]
          exact ih r h2 j

theorem HasState_AddStateWith_mono (lts : LTS K T) (k : K) (st : State K T) (s : K)
    (h : lts.HasState s = true) : (lts.AddStateWith k st).2.HasState s = true := by
  rw [AddStateWith_snd]
  unfold LTS.HasState mapContains at h ⊢
  simp only [mapFind_emplace]
  cases hf : mapFind s lts.states_ with
  | none => rw [hf] at h; cases h
  | some v => rfl

theorem HasState_mapModify (m : List (K × State K T)) (k : K) (f : State K T → State K T)
    (s : K) : mapContains s (mapModify k f m) = mapContains s m := by
  unfold mapContains
  rw [mapFind_modify]
  by_cases h : s = k
  · rw [if_pos h]; cases mapFind s m <;> rfl
  · rw [if_neg h]

theorem AddTransitionRun_keeps (lts : LTS K T) (a : K) (l : T) (b : K) (create : Bool) :
    (lts.AddTransitionRun a l b create).1.initial_state_ = lts.initial_state_ ∧
    ∀ s, lts.HasState s = true → (lts.AddTransitionRun a l b create).1.HasState s = true := by
  cases create with
  | true =>
    rw [AddTransitionRun_create]
    refine ⟨rfl, ?_⟩
    intro s h
    unfold LTS.HasState at h ⊢
    rw [HasState_mapModify]
    unfold mapContains at h ⊢
    simp only [mapFind_emplace]
    cases hf : mapFind s lts.states_ with
    | none => rw [hf] at h; cases h
    | some v => rfl
  | false =>
    rw [AddTransitionRun_strict]
    cases mapFind a lts.states_ with
    | none => exact ⟨rfl, fun s h => h⟩
    | some v =>
      refine ⟨rfl, ?_⟩
      intro s h
      unfold LTS.HasState at h ⊢
      rw [HasState_mapModify]
      exact h

/-- Counterexample to C9: `AddState("a")` on the empty LTS gives an LTS with
one state whose initial state, still the value-initialised empty string, is
not a key; and erasing the initial state `s` of the LTS with states `s`, `t`
leaves the LTS with the state `t` and the initial state `s`. -/
theorem Built_initial_state_not_a_key :
    LTS.Built (⟨[("a", ⟨[]⟩)], ""⟩ : LTS String String) ∧
    LTS.HasState (⟨[("a", ⟨[]⟩)], ""⟩ : LTS String String) "" = false ∧
    LTS.NumOfStates (⟨[("a", ⟨[]⟩)], ""⟩ : LTS String String) = 1 ∧
    LTS.Built (⟨[("t", ⟨[]⟩)], "s"⟩ : LTS String String) ∧
    LTS.HasState (⟨[("t", ⟨[]⟩)], "s"⟩ : LTS String String) "s" = false ∧
    LTS.NumOfStates (⟨[("t", ⟨[]⟩)], "s"⟩ : LTS String String) = 1 := by
  refine ⟨?_, by decide, rfl, ?_, by decide, rfl⟩
  · exact LTS.Built.AddState "a" LTS.Built.new
  · exact LTS.Built.EraseShallow "s"
      (LTS.Built.AddState "t" (LTS.Built.set_initial_state "s" true LTS.Built.new))

/-- Claim C9, amended: after `set_initial_state(k, true)` the initial state is
a key of the state map, and it stays one under `AddState`, `AddTransition`
(either flag), further `set_initial_state(_, true)` calls, and `EraseShallow`
or `EraseDeep` of any key other than the initial state. -/
theorem InitialKept_initial_state_is_key (lts : LTS K T) (h : LTS.InitialKept lts) :
    lts.HasState lts.initial_state_ = true := by
  induction h with
  | start lts k =>
    unfold LTS.set_initial_state
    by_cases hk : lts.HasState k = true
    · simp only [hk, Bool.not_true, Bool.false_and, Bool.false_eq_true, if_false]
      exact hk
    · have hk2 : lts.HasState k = false := by simpa using hk
      simp only [hk2, Bool.not_false, Bool.and_self, if_true, AddStateWith_snd]
      unfold LTS.HasState mapContains
      simp only [mapFind_emplace]
      cases mapFind k lts.states_ <;> simp
  | @AddState lts k _ ih =>
    have := HasState_AddStateWith_mono lts k State.new _ ih
    unfold LTS.AddState
    rw [AddStateWith_snd] at this ⊢
    exact this
  | @AddTransition lts a l b create _ ih =>
    obtain ⟨h1, h2⟩ := AddTransitionRun_keeps lts a l b create
    rw [h1]
    exact h2 _ ih
  | @EraseShallow lts k _ hne ih =>
    unfold LTS.EraseShallow
    by_cases hk : lts.HasState k = true
    · simp only [hk, if_true]
      unfold LTS.HasState mapContains at ih ⊢
      simp only
      rw [mapFind_erase_ne (fun h => hne h.symm)]
      exact ih
    · simp only [hk]
      exact ih
  | @EraseDeep lts k r _ hne hr ih =>
    unfold LTS.EraseDeep at hr
    by_cases hk : lts.HasState k = true
    · simp only [hk, if_true] at hr
      cases hm : LTS.eraseTargets k (mapErase k lts.states_) with
      | none => rw [hm] at hr; cases hr
      | some m =>
        rw [hm] at hr
        simp only [Option.some.injEq] at hr
        rw [← hr]
        unfold LTS.HasState mapContains at ih ⊢
        simp only
        rw [eraseTargets_isSome k _ m hm, mapFind_erase_ne (fun h => hne h.symm)]
        exact ih
    · simp only [hk] at hr
      simp only [Bool.false_eq_true, if_false, Option.some.injEq] at hr
      rw [← hr]
      exact ih

/-- Witness for C9 (amended): the LTS built by `set_initial_state("s", true)`,
`AddTransition("s", "x", "t")` and `EraseShallow("t")`. -/
theorem InitialKept_initial_state_is_key_witness :
    LTS.HasState (⟨[("s", ⟨[("x", "t")]⟩)], "s"⟩ : LTS String String) "s" = true :=
  InitialKept_initial_state_is_key (⟨[("s", ⟨[("x", "t")]⟩)], "s"⟩ : LTS String String)
    (LTS.InitialKept.EraseShallow "t"
      (LTS.InitialKept.AddTransition "s" "x" "t" true
        (LTS.InitialKept.start (LTS.new : LTS String String) "s"))
      (by decide))

end InitialStateTheorems

section ClassifierTheorems

theorem isDigit_not_space (c : Char) (h : c.isDigit = true) : isspace c = false := by
  unfold isspace
  have h1 : c ≠ ' ' := by intro h2; subst h2; simp [Char.isDigit] at h
  have h2 : c ≠ '\t' := by intro h2; subst h2; simp [Char.isDigit] at h
  have h3 : c ≠ '\n' := by intro h2; subst h2; simp [Char.isDigit] at h
  have h4 : c ≠ '\x0b' := by intro h2; subst h2; simp [Char.isDigit] at h
  have h5 : c ≠ '\x0c' := by intro h2; subst h2; simp [Char.isDigit] at h
  have h6 : c ≠ '\r' := by intro h2; subst h2; simp [Char.isDigit] at h
  simp [h1, h2, h3, h4, h5, h6]

theorem splitSign_of_ne (c : Char) (cs : List Char) (h1 : c ≠ '+') (h2 : c ≠ '-') :
    splitSign (c :: cs) = (false, c :: cs) := by
  unfold splitSign
  split
  · rename_i h; cases h; exact absurd rfl h1
  · rename_i h; cases h; exact absurd rfl h2
  · rfl

theorem digitsValue_append (xs : List Char) (d : Char) :
    digitsValue (xs ++ [d]) = digitsValue xs * 10 + (d.toNat - 48) := by
  simp [digitsValue, List.foldl_append]

theorem stoull_digits (ds : List Char) (hne : ds ≠ []) (hd : ∀ c ∈ ds, c.isDigit = true)
    (hv : digitsValue ds < 2 ^ 64) : stoull ds = .ok (digitsValue ds) := by
  cases ds with
  | nil => exact absurd rfl hne
  | cons c cs =>
    have hc : c.isDigit = true := hd c (List.mem_cons_self _ _)
    have hsp := isDigit_not_space c hc
    have hplus : c ≠ '+' := by intro h2; subst h2; simp [Char.isDigit] at hc
    have hminus : c ≠ '-' := by intro h2; subst h2; simp [Char.isDigit] at hc
    have htake : (c :: cs).takeWhile Char.isDigit = c :: cs := by
      apply List.takeWhile_eq_self_iff.2
      exact hd
    have hdrop : (c :: cs).dropWhile isspace = c :: cs := by
      simp [List.dropWhile_cons, hsp]
    unfold stoull
    simp only [hdrop, splitSign_of_ne c cs hplus hminus, htake]
    have hv2 : ¬ digitsValue (c :: cs) ≥ 2 ^ 64 := by omega
    simp only [List.isEmpty_cons, Bool.false_eq_true, if_false, if_neg hv2]

theorem digitChar_spec (d : Nat) (h : d < 10) :
    (Nat.digitChar d).isDigit = true ∧ (Nat.digitChar d).toNat - 48 = d := by
  interval_cases d <;> exact ⟨by decide, by decide⟩

theorem toDigitsCore_append (fuel : Nat) : ∀ (n : Nat) (ds : List Char),
    Nat.toDigitsCore 10 fuel n ds = Nat.toDigitsCore 10 fuel n [] ++ ds := by
  induction fuel with
  | zero => intro n ds; simp [Nat.toDigitsCore]
  | succ fuel ih =>
    intro n ds
    simp only [Nat.toDigitsCore]
    by_cases h : n / 10 = 0
    · simp [h]
    · simp only [h, if_false]
      rw [ih (n / 10) (Nat.digitChar (n % 10) :: ds), ih (n / 10) [Nat.digitChar (n % 10)]]
      simp

theorem toDigitsCore_spec (fuel : Nat) : ∀ n, n < fuel →
    Nat.toDigitsCore 10 fuel n [] ≠ [] ∧
    (∀ c ∈ Nat.toDigitsCore 10 fuel n [], c.isDigit = true) ∧
    digitsValue (Nat.toDigitsCore 10 fuel n []) = n := by
  induction fuel with
  | zero => intro n h; omega
  | succ fuel ih =>
    intro n hn
    simp only [Nat.toDigitsCore]
    have hmod : n % 10 < 10 := Nat.mod_lt _ (by decide)
    obtain ⟨hdig, hval⟩ := digitChar_spec (n % 10) hmod
    by_cases h : n / 10 = 0
    · simp only [h, if_true]
      refine ⟨by simp, ?_, ?_⟩
      · intro c hc
        rw [List.mem_singleton.1 hc]; exact hdig
      · simp only [digitsValue, List.foldl_cons, List.foldl_nil, Nat.zero_mul, Nat.zero_add]
        rw [hval]
        omega
    · simp only [h, if_false]
      rw [toDigitsCore_append]
      have hlt : n / 10 < fuel := by omega
      obtain ⟨h1, h2, h3⟩ := ih (n / 10) hlt
      refine ⟨by simp, ?_, ?_⟩
      · intro c hc
        rcases List.mem_append.1 hc with hc | hc
        · exact h2 c hc
        · rw [List.mem_singleton.1 hc]; exact hdig
      · rw [digitsValue_append, h3, hval]
        omega
theorem toDigits_spec (n : Nat) :
    Nat.toDigits 10 n ≠ [] ∧ (∀ c ∈ Nat.toDigits 10 n, c.isDigit = true) ∧
    digitsValue (Nat.toDigits 10 n) = n :=
  toDigitsCore_spec (n + 1) n (Nat.lt_succ_self n)

theorem startsWith_append (a r : List Char) : startsWith a (a ++ r) = true := by
  induction a with
  | nil => simp [startsWith]
  | cons c a ih => simp [startsWith, ih]

theorem findSub_of_startsWith (a s : List Char) (h : startsWith a s = true) :
    findSub a s = true := by
  cases s with
  | nil => simpa [findSub] using h
  | cons c cs => simp [findSub, h]

theorem findSub_i_eq_false (r s : List Char) (h : ∀ c ∈ s, c ≠ 'i') :
    findSub ('i' :: r) s = false := by
  induction s with
  | nil => simp [findSub, startsWith]
  | cons c cs ih =>
    have hc : ¬ 'i' = c := fun h2 => h c (List.mem_cons_self _ _) h2.symm
    have hb : ('i' == c) = false := by simpa using hc
    simp only [findSub, startsWith, hb, Bool.false_and, Bool.false_or]
    exact ih (fun x hx => h x (List.mem_cons_of_mem _ hx))

/-- The classifier on a label that begins with `in:`: the conversion of the
text after the colon decides the result. -/
theorem StringToOperation_in (rest : List Char) :
    StringToOperation (String.mk ('i' :: 'n' :: ':' :: rest)) =
      match stoull rest with
      | .ok n => .ok (.transfer ⟨.in_, n⟩)
      | .error e => .error e := by
  unfold StringToOperation
  have h1 : "in:".data = ['i', 'n', ':'] := rfl
  have hf : findSub ['i', 'n', ':'] ('i' :: 'n' :: ':' :: rest) = true :=
    findSub_of_startsWith _ _ (startsWith_append ['i', 'n', ':'] rest)
  simp only [h1, hf, if_true, substr, bind, Except.bind, pure, Except.pure]
  simp only [List.length_cons, List.drop_succ_cons, List.drop_zero]
  have hlen : ¬ 3 > rest.length + 1 + 1 + 1 := by omega
  rw [if_neg hlen]
  dsimp only
  cases stoull rest <;> rfl

/-- The classifier on a label that begins with `out:` and does not contain
`in:`: the conversion of the text after the colon decides the result. -/
theorem StringToOperation_out (rest : List Char)
    (hin : findSub ['i', 'n', ':'] ('o' :: 'u' :: 't' :: ':' :: rest) = false) :
    StringToOperation (String.mk ('o' :: 'u' :: 't' :: ':' :: rest)) =
      match stoull rest with
      | .ok n => .ok (.transfer ⟨.out, n⟩)
      | .error e => .error e := by
  unfold StringToOperation
  have h1 : "in:".data = ['i', 'n', ':'] := rfl
  have h2 : "out:".data = ['o', 'u', 't', ':'] := rfl
  have hf : findSub ['o', 'u', 't', ':'] ('o' :: 'u' :: 't' :: ':' :: rest) = true :=
    findSub_of_startsWith _ _ (startsWith_append ['o', 'u', 't', ':'] rest)
  simp only [h1, h2, hin, hf, if_true, substr, bind, Except.bind, pure, Except.pure,
    Bool.false_eq_true, if_false]
  simp only [List.length_cons, List.drop_succ_cons, List.drop_zero]
  have hlen : ¬ 4 > rest.length + 1 + 1 + 1 + 1 := by omega
  rw [if_neg hlen]
  dsimp only
  cases stoull rest <;> rfl

/-- Claim C5: for every `n` below `2^64`, the label `in:` followed by `n` in
decimal is classified as the transfer with direction in and handle `n`, the
label `out:` followed by `n` in decimal as the transfer with direction out
and handle `n`; the label `nop` is classified as the no-op. -/
theorem StringToOperation_decimal_handle (n : Nat) (hn : n < 2 ^ 64) :
    StringToOperation ("in:" ++ toString n) = .ok (.transfer ⟨.in_, n⟩) ∧
    StringToOperation ("out:" ++ toString n) = .ok (.transfer ⟨.out, n⟩) ∧
    StringToOperation "nop" = .ok .nop := by
  obtain ⟨hne, hdig, hval⟩ := toDigits_spec n
  have hst : stoull (Nat.toDigits 10 n) = .ok n := by
    have := stoull_digits (Nat.toDigits 10 n) hne hdig (by rw [hval]; exact hn)
    rw [hval] at this
    exact this
  have e1 : "in:" ++ toString n = String.mk ('i' :: 'n' :: ':' :: Nat.toDigits 10 n) := rfl
  have e2 : "out:" ++ toString n = String.mk ('o' :: 'u' :: 't' :: ':' :: Nat.toDigits 10 n) :=
    rfl
  refine ⟨?_, ?_, rfl⟩
  · rw [e1, StringToOperation_in, hst]
  · rw [e2, StringToOperation_out, hst]
    apply findSub_i_eq_false
    intro c hc
    simp only [List.mem_cons] at hc
    rcases hc with h | h | h | h | h
    · rw [h]; decide
    · rw [h]; decide
    · rw [h]; decide
    · rw [h]; decide
    · intro hi
      have := hdig c h
      rw [hi] at this
      simp [Char.isDigit] at this

/-- Witness for C5: the labels `in:7` and `out:42` of the spec. -/
theorem StringToOperation_decimal_handle_witness :
    StringToOperation "in:7" = .ok (.transfer ⟨.in_, 7⟩) ∧
    StringToOperation "out:42" = .ok (.transfer ⟨.out, 42⟩) ∧
    StringToOperation "nop" = .ok .nop :=
  ⟨(StringToOperation_decimal_handle 7 (by decide)).1,
   (StringToOperation_decimal_handle 42 (by decide)).2.1,
   (StringToOperation_decimal_handle 7 (by decide)).2.2⟩

/-- Evaluation for claim C6: the label `xin:5` begins neither with `in:` nor
with `out:` and is not `nop`, yet the classifier does not return the generic
action `xin:5`: `find("in:")` succeeds, `stoull` is applied to `n:5` and
throws `std::invalid_argument`.  The label `abc7in:` is classified as the
transfer with handle 7. -/
theorem StringToOperation_infix_not_generic :
    StringToOperation "xin:5" = .error .invalid_argument ∧
    StringToOperation "abc7in:" = .ok (.transfer ⟨.in_, 7⟩) ∧
    StringToOperation "weld" = .ok (.operation "weld") :=
  ⟨rfl, rfl, rfl⟩

/-- Counterexample to C7: the text after the colon of `in:7abc`, `in: 7`,
`in:+7` and `out:-1` is not a plain decimal number, yet the classifier does
not fail on them; and it fails on `in:18446744073709551616`, whose text after
the colon is a decimal number. -/
theorem StringToOperation_lenient_suffix :
    StringToOperation "in:7abc" = .ok (.transfer ⟨.in_, 7⟩) ∧
    StringToOperation "in: 7" = .ok (.transfer ⟨.in_, 7⟩) ∧
    StringToOperation "in:+7" = .ok (.transfer ⟨.in_, 7⟩) ∧
    StringToOperation "out:-1" = .ok (.transfer ⟨.out, 18446744073709551615⟩) ∧
    StringToOperation "in:18446744073709551616" = .error .out_of_range :=
  ⟨rfl, rfl, rfl, rfl, rfl⟩

/-- Claim C7, amended: on a label that begins with `in:`, or begins with
`out:` and does not contain `in:`, the classifier fails exactly when the text
after the colon, once leading white space and one optional sign are skipped,
does not start with a digit (`std::invalid_argument`) or starts with a run of
digits whose value is `2^64` or more (`std::out_of_range`); otherwise it
returns the transfer whose handle is the value of that run of digits (negated
modulo `2^64` after a minus sign), whatever follows the digits. -/
theorem StringToOperation_fails_as_stoull (rest : List Char) :
    (StringToOperation (String.mk ('i' :: 'n' :: ':' :: rest)) =
      if ((splitSign (rest.dropWhile isspace)).2.takeWhile Char.isDigit).isEmpty then
        .error .invalid_argument
      else if digitsValue ((splitSign (rest.dropWhile isspace)).2.takeWhile Char.isDigit)
          ≥ 2 ^ 64 then
        .error .out_of_range
      else .ok (.transfer ⟨.in_,
        if (splitSign (rest.dropWhile isspace)).1 then
          (2 ^ 64
            - digitsValue ((splitSign (rest.dropWhile isspace)).2.takeWhile Char.isDigit))
            % 2 ^ 64
        else digitsValue ((splitSign (rest.dropWhile isspace)).2.takeWhile Char.isDigit)⟩)) ∧
    (findSub ['i', 'n', ':'] ('o' :: 'u' :: 't' :: ':' :: rest) = false →
      StringToOperation (String.mk ('o' :: 'u' :: 't' :: ':' :: rest)) =
        if ((splitSign (rest.dropWhile isspace)).2.takeWhile Char.isDigit).isEmpty then
          .error .invalid_argument
        else if digitsValue ((splitSign (rest.dropWhile isspace)).2.takeWhile Char.isDigit)
            ≥ 2 ^ 64 then
          .error .out_of_range
        else .ok (.transfer ⟨.out,
          if (splitSign (rest.dropWhile isspace)).1 then
            (2 ^ 64
              - digitsValue ((splitSign (rest.dropWhile isspace)).2.takeWhile Char.isDigit))
              % 2 ^ 64
          else digitsValue ((splitSign (rest.dropWhile isspace)).2.takeWhile Char.isDigit)⟩)) := by
  constructor
  · rw [StringToOperation_in]
    unfold stoull
    simp only
    split_ifs <;> rfl
  · intro hin
    rw [StringToOperation_out rest hin]
    unfold stoull
    simp only
    split_ifs <;> rfl

end ClassifierTheorems

section MachineTheorems

/-- The call `AddResource` appends the resource while the topology has no state, and
does nothing once the topology has a state. -/
theorem AddResource_cases (m : Machine) (r : LTS String String) :
    (m.topology_.NumOfStates = 0 → (m.AddResource r).resources_ = m.resources_ ++ [r]) ∧
    (m.topology_.NumOfStates ≠ 0 → m.AddResource r = m) := by
  unfold Machine.AddResource
  constructor
  · intro h; simp [h]
  · intro h; simp [h]

/-- Evaluation for claim C8: a machine over the resource `q0 -a-> q1` whose
topology has been computed (it has the states `q0`, `q1`) ignores
`AddResource`: the resource list is still the one resource, so a later
`ComputeTopology` is computed over the old list, whatever `Combine` does. -/
theorem AddResource_after_topology_ignored :
    (Machine.AddResource
      ⟨[⟨[("q0", ⟨[("a", "q1")]⟩), ("q1", ⟨[]⟩)], "q0"⟩],
        ⟨[("q0", ⟨[("a", "q1")]⟩), ("q1", ⟨[]⟩)], "q0"⟩⟩
      ⟨[("r0", ⟨[("b", "r1")]⟩), ("r1", ⟨[]⟩)], "r0"⟩).resources_
      = [⟨[("q0", ⟨[("a", "q1")]⟩), ("q1", ⟨[]⟩)], "q0"⟩] ∧
    (∀ combine : List (LTS String String) → LTS String String,
      (Machine.ComputeTopology combine
        (Machine.AddResource
          ⟨[⟨[("q0", ⟨[("a", "q1")]⟩), ("q1", ⟨[]⟩)], "q0"⟩],
            ⟨[("q0", ⟨[("a", "q1")]⟩), ("q1", ⟨[]⟩)], "q0"⟩⟩
          ⟨[("r0", ⟨[("b", "r1")]⟩), ("r1", ⟨[]⟩)], "r0"⟩)).topology_
        = combine [⟨[("q0", ⟨[("a", "q1")]⟩), ("q1", ⟨[]⟩)], "q0"⟩]) := by
  constructor
  · rfl
  · intro combine; rfl

end MachineTheorems

section TopologyEvaluation

/-- The topology of the two resources `q0 -a-> q1` and `r0 -b-> r1`: four
tuples and the four interleaving edges, with initial state `(q0, r0)`. -/
theorem Combine_two_resources :
    Combine [⟨[("q0", ⟨[("a", "q1")]⟩), ("q1", ⟨[]⟩)], "q0"⟩,
        ⟨[("r0", ⟨[("b", "r1")]⟩), ("r1", ⟨[]⟩)], "r0"⟩]
      = some ⟨[(["q0", "r0"], ⟨[((0, "a"), ["q1", "r0"]), ((1, "b"), ["q0", "r1"])]⟩),
          (["q1", "r0"], ⟨[((1, "b"), ["q1", "r1"])]⟩),
          (["q0", "r1"], ⟨[((0, "a"), ["q1", "r1"])]⟩),
          (["q1", "r1"], ⟨[]⟩)], ["q0", "r0"]⟩ := by
  rfl

end TopologyEvaluation

section StateCountTheorems

variable {K T : Type} [DecidableEq K]

theorem length_mapEmplace {V : Type} (k : K) (v : V) (m : List (K × V)) :
    (mapEmplace k v m).length = m.length + (if mapContains k m = true then 0 else 1) := by
  unfold mapEmplace
  by_cases h : mapContains k m = true
  · simp [h]
  · simp [h]

theorem mapContains_emplace {V : Type} (j k : K) (v : V) (m : List (K × V)) :
    mapContains j (mapEmplace k v m) = (mapContains j m || decide (j = k)) := by
  unfold mapContains
  rw [mapFind_emplace]
  cases mapFind j m with
  | some x => rfl
  | none =>
    by_cases h : k = j
    · subst h; simp
    · have h2 : ¬ j = k := fun h3 => h h3.symm
      simp [h, h2]

/-- Claim C21: with `create_missing_states = true`, `AddTransition(src, label,
dst)` returns and increases `NumOfStates` by the number of distinct keys among
`src` and `dst` that were not states before the call: one for `src` if it was
absent, and one more for `dst` if it was absent and differs from `src` (so 0,
1 or 2).  In particular a self-loop on an absent key adds one state, whose
only outgoing transition is `(label, itself)`, and a state created for `dst`
alone has no outgoing transitions. -/
theorem AddTransition_create_state_count (lts : LTS K T) (src : K) (label : T) (dst : K) :
    ∃ after, lts.AddTransition src label dst true = .ok after ∧
      after.NumOfStates = lts.NumOfStates
        + (if lts.HasState src = true then 0 else 1)
        + (if lts.HasState dst = true ∨ dst = src then 0 else 1) ∧
      (lts.HasState src = false → dst = src →
        after.NumOfStates = lts.NumOfStates + 1 ∧
        after.outgoing src = some [(label, src)]) ∧
      (lts.HasState dst = false → dst ≠ src → after.outgoing dst = some []) := by
  have hcount : LTS.NumOfStates (⟨mapModify src (fun s => s.AddTransition label dst)
        (mapEmplace dst State.new (mapEmplace src State.new lts.states_)),
        lts.initial_state_⟩ : LTS K T)
      = lts.NumOfStates
        + (if lts.HasState src = true then 0 else 1)
        + (if lts.HasState dst = true ∨ dst = src then 0 else 1) := by
    unfold LTS.NumOfStates LTS.HasState
    simp only [mapModify, List.length_map]
    rw [length_mapEmplace, length_mapEmplace, mapContains_emplace]
    by_cases h1 : mapContains dst lts.states_ = true
    · simp [h1]
    · by_cases h2 : dst = src
      · simp [h1, h2]
      · simp [h1, h2]
  refine ⟨_, AddTransition_create lts src label dst, hcount, ?_, ?_⟩
  · intro hsrc hds
    refine ⟨?_, ?_⟩
    · rw [hcount]
      simp [hsrc, hds]
    · rw [outgoing_AddTransition, if_pos rfl, hds]
      have hnone : lts.outgoing src = none := by
        rw [HasState_eq_isSome] at hsrc
        cases ho : lts.outgoing src with
        | none => rfl
        | some v => rw [ho] at hsrc; cases hsrc
      rw [hnone]
      rfl
  · intro hdst hne
    rw [outgoing_AddTransition, if_neg hne, if_pos rfl]
    have hnone : lts.outgoing dst = none := by
      rw [HasState_eq_isSome] at hdst
      cases ho : lts.outgoing dst with
      | none => rfl
      | some v => rw [ho] at hdst; cases hdst
    rw [hnone]
    rfl

/-- The three counts of C21 on concrete calls: both keys present (no new
state), a self-loop on an absent key (one new state, with the loop as its
only transition), and two distinct absent keys (two new states, the one
created for the end state without transitions). -/
theorem AddTransition_create_state_count_examples :
    LTS.AddTransition (⟨[("a", ⟨[]⟩), ("b", ⟨[]⟩)], "a"⟩ : LTS String String) "a" "x" "b" true
      = .ok ⟨[("a", ⟨[("x", "b")]⟩), ("b", ⟨[]⟩)], "a"⟩ ∧
    LTS.AddTransition (⟨[("a", ⟨[]⟩)], "a"⟩ : LTS String String) "k" "x" "k" true
      = .ok ⟨[("a", ⟨[]⟩), ("k", ⟨[("x", "k")]⟩)], "a"⟩ ∧
    LTS.AddTransition (⟨[("a", ⟨[]⟩)], "a"⟩ : LTS String String) "p" "x" "q" true
      = .ok ⟨[("a", ⟨[]⟩), ("p", ⟨[("x", "q")]⟩), ("q", ⟨[]⟩)], "a"⟩ :=
  ⟨rfl, rfl, rfl⟩

end StateCountTheorems

end pcs
